import Mathlib

/-!
# server-monitoring: metric collection pipeline

A shallow embedding of `cmd/server-monitoring/main.go`.

* `uint64` values are natural numbers below `2 ^ 64`; subtraction and
  multiplication wrap explicitly (`% 2 ^ 64`).
* `float64` values are modelled by `F64`: a finite value is the rational number it
  denotes, and every arithmetic operation is the exact rational operation followed
  by IEEE-754 binary64 rounding (round to nearest, ties to even, 53 significant
  bits, gradual underflow below `2 ^ (-1022)`, overflow to infinity at `2 ^ 1024`).
  The sign of zero is not tracked: every zero the program computes comes from the
  conversion of an unsigned integer and is `+0`.
* Text is a Lean `String`; the files under `/proc` are given as the list of lines a
  `bufio.Scanner` yields for them.
-/

namespace ServerMonitoring

/-! ## float64 -/

/-- Number of halvings needed to bring `n` below `2`, bounded by the first argument. -/
def log2Fuel : Nat → Nat → Nat
  | 0, _ => 0
  | fuel + 1, n => if n < 2 then 0 else log2Fuel fuel (n / 2) + 1

/-- The position of the highest set bit of `n` (`0` for `n = 0`). -/
def ilog2 (n : Nat) : Nat := log2Fuel n n

/-- The binary exponent of the fraction `n / d` of two positive naturals: the `e`
with `2 ^ e ≤ n / d < 2 ^ (e + 1)`. -/
def floorLog2Frac (n d : Nat) : Int :=
  let a := ilog2 n
  let b := ilog2 d
  if n * 2 ^ b < d * 2 ^ a then (a : Int) - b - 1 else (a : Int) - b

/-- The binary exponent of a positive rational: the `e` with `2 ^ e ≤ q < 2 ^ (e + 1)`. -/
def floorLog2 (q : ℚ) : Int := floorLog2Frac q.num.natAbs q.den

/-- The integer nearest to `y`, a tie going to the even neighbour. -/
def roundHalfEven (y : ℚ) : Int :=
  let f := ⌊y⌋
  let r := y - f
  if r < 1 / 2 then f
  else if 1 / 2 < r then f + 1
  else if f % 2 = 0 then f else f + 1

/-- The spacing of binary64 numbers around the positive rational `a`: 53 significant
bits, and the fixed spacing `2 ^ (-1074)` in the subnormal range. -/
def ulp (a : ℚ) : ℚ := (2 : ℚ) ^ (max (floorLog2 a) (-1022) - 52)

/-- The binary64 number nearest to the rational `q` (ties to even), as a rational,
before the overflow check. -/
def roundToF64 (q : ℚ) : ℚ :=
  if q = 0 then 0
  else if 0 < q then (roundHalfEven (q / ulp q) : ℚ) * ulp q
  else -((roundHalfEven (-q / ulp (-q)) : ℚ) * ulp (-q))

/-- A `float64` value. -/
inductive F64 where
  | finite (q : ℚ)
  | posInf
  | negInf
  | nan
  deriving DecidableEq

namespace F64

/-- The `float64` an exact rational result is rounded to. -/
def round (q : ℚ) : F64 :=
  let r := roundToF64 q
  if (2 : ℚ) ^ 1024 ≤ r then posInf
  else if r ≤ -(2 : ℚ) ^ 1024 then negInf
  else finite r

/-- The conversion `float64(v)` of a `uint64`. -/
def ofUInt64 (v : Nat) : F64 := round (v : ℚ)

/-- The quotient `x / y` of two `float64` values. -/
def div : F64 → F64 → F64
  | nan, _ => nan
  | _, nan => nan
  | finite a, finite b =>
    if b = 0 then (if a = 0 then nan else if 0 < a then posInf else negInf)
    else round (a / b)
  | finite _, posInf => finite 0
  | finite _, negInf => finite 0
  | posInf, finite b => if 0 ≤ b then posInf else negInf
  | negInf, finite b => if 0 ≤ b then negInf else posInf
  | posInf, posInf => nan
  | posInf, negInf => nan
  | negInf, posInf => nan
  | negInf, negInf => nan

/-- The product `x * y` of two `float64` values. -/
def mul : F64 → F64 → F64
  | nan, _ => nan
  | _, nan => nan
  | finite a, finite b => round (a * b)
  | finite a, posInf => if a = 0 then nan else if 0 < a then posInf else negInf
  | finite a, negInf => if a = 0 then nan else if 0 < a then negInf else posInf
  | posInf, finite b => if b = 0 then nan else if 0 < b then posInf else negInf
  | negInf, finite b => if b = 0 then nan else if 0 < b then negInf else posInf
  | posInf, posInf => posInf
  | posInf, negInf => negInf
  | negInf, posInf => negInf
  | negInf, negInf => posInf

/-- The comparison `x < y`; false as soon as one side is NaN. -/
def lt : F64 → F64 → Bool
  | nan, _ => false
  | _, nan => false
  | finite a, finite b => decide (a < b)
  | finite _, posInf => true
  | finite _, negInf => false
  | posInf, _ => false
  | negInf, finite _ => true
  | negInf, posInf => true
  | negInf, negInf => false

/-- The comparison `x ≥ y`; false as soon as one side is NaN. -/
def ge : F64 → F64 → Bool
  | nan, _ => false
  | _, nan => false
  | finite a, finite b => decide (b ≤ a)
  | finite _, posInf => false
  | finite _, negInf => true
  | posInf, _ => true
  | negInf, finite _ => false
  | negInf, posInf => false
  | negInf, negInf => true

end F64

/-! ## uint64 arithmetic -/

/-- The `uint64` difference `a - b`, wrapping modulo `2 ^ 64`. -/
def subU64 (a b : Nat) : Nat := (a + 2 ^ 64 - b) % 2 ^ 64

/-- The `uint64` product `a * b`, wrapping modulo `2 ^ 64`. -/
def mulU64 (a b : Nat) : Nat := (a * b) % 2 ^ 64

/-- The conversion `uint64(x)` of a signed integer. -/
def toU64 (x : Int) : Nat := (x % 2 ^ 64).toNat

/-! ## strings and strconv -/

/-- The white space of `unicode.IsSpace`, which `strings.Fields` splits at. -/
def isSpace (c : Char) : Bool :=
  let n := c.toNat
  (9 ≤ n && n ≤ 13) || n == 32 || n == 0x85 || n == 0xA0 || n == 0x1680 ||
    (0x2000 ≤ n && n ≤ 0x200A) || n == 0x2028 || n == 0x2029 || n == 0x202F ||
    n == 0x205F || n == 0x3000

/-- Splitting at white space: the second argument is the field being read, reversed. -/
def fieldsGo : List Char → List Char → List String
  | [], cur => if cur.isEmpty then [] else [String.mk cur.reverse]
  | c :: cs, cur =>
    if isSpace c then
      (if cur.isEmpty then fieldsGo cs [] else String.mk cur.reverse :: fieldsGo cs [])
    else fieldsGo cs (c :: cur)

/-- The function `strings.Fields`: the maximal runs of non-space characters. -/
def Fields (s : String) : List String := fieldsGo s.data []

/-- The function `strings.HasPrefix`. -/
def HasPrefix (s pre : String) : Bool := pre.data.isPrefixOf s.data

/-- Reading decimal digits onto an accumulator; `none` at the first other character. -/
def parseDigits : List Char → Nat → Option Nat
  | [], acc => some acc
  | c :: cs, acc =>
    if 48 ≤ c.toNat && c.toNat ≤ 57 then parseDigits cs (acc * 10 + (c.toNat - 48)) else none

/-- The call `strconv.ParseUint(s, 10, 64)`: `none` stands for a non-nil error (empty
text, a character that is not a decimal digit, or a value that does not fit 64 bits). -/
def ParseUint (s : String) : Option Nat :=
  if s.data.isEmpty then none
  else
    match parseDigits s.data 0 with
    | some v => if v < 2 ^ 64 then some v else none
    | none => none

/-! ## CPU usage -/

/-- The type `cpuSnapshot`: two cumulative `uint64` tick counters. -/
structure cpuSnapshot where
  idle : Nat
  total : Nat
  deriving DecidableEq

/-- The result of a Go function returning `(T, error)`. -/
inductive Result (α : Type) where
  | ok (v : α)
  | error (msg : String)
  deriving DecidableEq

/-- The function `readCPUUsage`, given what its two calls of `readCPUSnapshot`
return (the sleep between them has no effect on the value). -/
def readCPUUsage (first second : Result cpuSnapshot) : Result F64 :=
  match first with
  | .error e => .error e
  | .ok first =>
    match second with
    | .error e => .error e
    | .ok second =>
      let deltaTotal := subU64 second.total first.total
      let deltaIdle := subU64 second.idle first.idle
      if deltaTotal ≤ 0 then .error "invalid cpu delta"
      else
        let usage :=
          F64.mul (F64.div (F64.ofUInt64 (subU64 deltaTotal deltaIdle)) (F64.ofUInt64 deltaTotal))
            (F64.finite 100)
        let usage := if F64.lt usage (F64.finite 0) then F64.finite 0 else usage
        let usage := if F64.lt (F64.finite 100) usage then F64.finite 100 else usage
        .ok usage

/-! ## Memory usage -/

/-- The function `parseMeminfoValue`. -/
def parseMeminfoValue (line : String) : Nat :=
  match Fields line with
  | _ :: f1 :: _ =>
    match ParseUint f1 with
    | some v => mulU64 v 1024
    | none => 0
  | _ => 0

/-- One iteration of the scan of `readMemUsage`, up to its `break` test: the new
`(total, available)`. -/
def meminfoStep (line : String) (st : Nat × Nat) : Nat × Nat :=
  if HasPrefix line "MemTotal:" then (parseMeminfoValue line, st.2)
  else if HasPrefix line "MemAvailable:" then (st.1, parseMeminfoValue line)
  else st

/-- The scan loop of `readMemUsage` over the lines of `/proc/meminfo`, from the state
`(total, available)`; it stops as soon as both are positive. -/
def scanMeminfo : List String → Nat × Nat → Nat × Nat
  | [], st => st
  | line :: rest, st =>
    let st1 := meminfoStep line st
    if 0 < st1.1 ∧ 0 < st1.2 then st1 else scanMeminfo rest st1

/-- The function `readMemUsage` on the lines of `/proc/meminfo` (the file was opened and
scanned without a read error). -/
def readMemUsage (lines : List String) : Result F64 :=
  let st := scanMeminfo lines (0, 0)
  if st.1 = 0 ∨ st.2 = 0 then .error "meminfo values not found"
  else
    let used := subU64 st.1 st.2
    .ok (F64.mul (F64.div (F64.ofUInt64 used) (F64.ofUInt64 st.1)) (F64.finite 100))

/-! ## Disk usage -/

/-- The fields of `syscall.Statfs_t` the scan reads: `Bsize` is signed, the block
counts are `uint64`. -/
structure Statfs_t where
  Bsize : Int
  Blocks : Nat
  Bavail : Nat

/-- The type `DiskUsage`. -/
structure DiskUsage where
  MountPoint : String
  UsedPercent : F64
  UsedBytes : Nat
  TotalBytes : Nat
  deriving DecidableEq

/-- The mount point and the filesystem type of a row of the mount table (`fields[1]` and
`fields[2]`); `none` for a row of fewer than three fields. -/
def rowFields (line : String) : Option (String × String) :=
  match Fields line with
  | _ :: mountPoint :: fsType :: _ => some (mountPoint, fsType)
  | _ => none

/-- The entry `readDiskUsages` appends for a mount point with statistics `stat`. -/
def diskUsageOf (mountPoint : String) (stat : Statfs_t) : DiskUsage :=
  let total := mulU64 stat.Blocks (toU64 stat.Bsize)
  let avail := mulU64 stat.Bavail (toU64 stat.Bsize)
  let used := subU64 total avail
  let usedPercent :=
    F64.mul (F64.div (F64.ofUInt64 used) (F64.ofUInt64 total)) (F64.finite 100)
  { MountPoint := mountPoint, UsedPercent := usedPercent, UsedBytes := used, TotalBytes := total }

/-- One iteration of the loop of `readDiskUsages` on the state `(seen, usages)`.
`statfs` stands for `syscall.Statfs`: `none` is a non-nil error. -/
def diskStep (fstypeExclude : List String) (statfs : String → Option Statfs_t)
    (st : List String × List DiskUsage) (line : String) : List String × List DiskUsage :=
  match rowFields line with
  | none => st
  | some (mountPoint, fsType) =>
    if fsType ∈ fstypeExclude then st
    else if mountPoint ∈ st.1 then st
    else
      match statfs mountPoint with
      | none => (mountPoint :: st.1, st.2)
      | some stat =>
        if stat.Blocks = 0 then (mountPoint :: st.1, st.2)
        else (mountPoint :: st.1, st.2 ++ [diskUsageOf mountPoint stat])

/-- The loop of `readDiskUsages` over the rows of `/proc/self/mounts`: the final
`(seen, usages)`. -/
def scanMounts (fstypeExclude : List String) (statfs : String → Option Statfs_t)
    (rows : List String) : List String × List DiskUsage :=
  rows.foldl (diskStep fstypeExclude statfs) ([], [])

/-- The function `readDiskUsages` on the rows of `/proc/self/mounts` (the file was
opened and scanned without a read error): the slice it returns. -/
def readDiskUsages (fstypeExclude : List String) (statfs : String → Option Statfs_t)
    (rows : List String) : List DiskUsage :=
  (scanMounts fstypeExclude statfs rows).2

/-- The function `defaultDiskFSTypeExclude`: the keys of the map it returns. -/
def defaultDiskFSTypeExclude : List String :=
  ["proc", "sysfs", "devtmpfs", "tmpfs", "devpts", "cgroup", "cgroup2", "mqueue",
    "hugetlbfs", "debugfs", "tracefs", "pstore", "securityfs", "rpc_pipefs", "configfs",
    "fusectl", "overlay", "squashfs", "autofs", "binfmt_misc", "nsfs", "ramfs", "efivarfs",
    "bpf", "selinuxfs", "cgroupfs"]

/-- The mount table as `readDiskUsages` meets it: the error of `os.Open`, the rows the
scanner yields, and the error `scanner.Err()` reports after the loop. -/
structure MountsFile where
  openErr : Option String
  rows : List String
  scanErr : Option String

/-- The function `readDiskUsages` with its error result: it fails only when the mount
table cannot be opened or scanned. -/
def readDiskUsagesFile (fstypeExclude : List String) (statfs : String → Option Statfs_t)
    (file : MountsFile) : Result (List DiskUsage) :=
  match file.openErr with
  | some e => .error e
  | none =>
    let usages := readDiskUsages fstypeExclude statfs file.rows
    match file.scanErr with
    | some e => .error e
    | none => .ok usages

/-! ## CPU snapshot -/

/-- The loop of `readCPUSnapshot` that parses the counters: the values, or the field
that `ParseUint` rejects first. -/
def parseCounters : List String → Except String (List Nat)
  | [] => .ok []
  | f :: fs =>
    match ParseUint f with
    | none => .error f
    | some v =>
      match parseCounters fs with
      | .error g => .error g
      | .ok vs => .ok (v :: vs)

/-- The sum loop of `readCPUSnapshot`, in `uint64`. -/
def sumU64 (values : List Nat) : Nat :=
  values.foldl (fun total v => (total + v) % 2 ^ 64) 0

/-- The function `readCPUSnapshot` on the first line of `/proc/stat` (read without an
error other than end of file). `numError f` is the text of the error `ParseUint`
returns for the field `f`. The outer `none` stands for a run-time panic, which an index
out of range would raise. -/
def readCPUSnapshot (numError : String → String) (line : String) :
    Option (Result cpuSnapshot) :=
  if !HasPrefix line "cpu " then some (.error "cpu line not found")
  else
    let fields := Fields line
    if fields.length < 5 then some (.error "invalid cpu fields")
    else
      match parseCounters fields.tail with
      | .error f => some (.error (numError f))
      | .ok values =>
        match values.get? 3 with
        | none => none
        | some v3 =>
          let idle :=
            if 4 < values.length then
              match values.get? 4 with
              | none => none
              | some v4 => some ((v3 + v4) % 2 ^ 64)
            else some v3
          match idle with
          | none => none
          | some idle => some (.ok { idle := idle, total := sumU64 values })

/-! ## fmt -/

/-- The decimal digits of `n`, padded with zeros on the left to `width` characters. -/
def padZeros (width n : Nat) : String :=
  String.mk (List.replicate (width - (Nat.repr n).length) '0') ++ Nat.repr n

/-- The verb `%.<prec>f` on a finite value: the exact value rounded to `prec` decimals,
a tie going to the even digit. -/
def formatFixed (prec : Nat) (q : ℚ) : String :=
  let n := (roundHalfEven (|q| * (10 : ℚ) ^ prec)).toNat
  (if q < 0 then "-" else "") ++ Nat.repr (n / 10 ^ prec) ++
    (if prec = 0 then "" else "." ++ padZeros prec (n % 10 ^ prec))

/-- The verb `%.<prec>f` of `fmt` on a `float64`. (A negative zero, which `F64` does not
tell from zero, would print with a minus sign.) -/
def formatFloat (prec : Nat) : F64 → String
  | .finite q => formatFixed prec q
  | .posInf => "+Inf"
  | .negInf => "-Inf"
  | .nan => "NaN"

/-- The verb `%d` of `fmt` on an `int`. -/
def formatInt (c : Int) : String :=
  if c < 0 then "-" ++ Nat.repr c.natAbs else Nat.repr c.natAbs

/-! ## formatBytes -/

/-- The loop of `formatBytes` from the state `(n, div, exp)`; the first argument bounds
the number of iterations. -/
def formatBytesLoop : Nat → Nat → Nat → Nat → Nat × Nat
  | 0, _, div, exp => (div, exp)
  | fuel + 1, n, div, exp =>
    if 1024 ≤ n then formatBytesLoop fuel (n / 1024) (mulU64 div 1024) (exp + 1)
    else (div, exp)

/-- The slice `suffix` of `formatBytes`. -/
def byteSuffixes : List String := ["KiB", "MiB", "GiB", "TiB", "PiB"]

/-- The function `formatBytes` on a `uint64`. -/
def formatBytes (v : Nat) : String :=
  if v < 1024 then Nat.repr v ++ " B"
  else
    let r := formatBytesLoop v (v / 1024) 1024 0
    let value := F64.div (F64.ofUInt64 v) (F64.ofUInt64 r.1)
    let exp := if byteSuffixes.length ≤ r.2 then byteSuffixes.length - 1 else r.2
    formatFloat 1 value ++ " " ++ byteSuffixes.getD exp ""

/-! ## Threshold evaluation and dispatch -/

/-- The type `Config`. -/
structure Config where
  APIURL : String
  APIToken : String
  ChatID : String
  MessageThreadID : String
  CPUThreshold : F64
  MemThreshold : F64
  DiskThreshold : F64

/-- The CPU block of `main`: what it appends to `alerts`. -/
def evalCPU (threshold : F64) (cpu : Result F64) (alerts : List String) : List String :=
  match cpu with
  | .error err => alerts ++ ["CPU: ошибка чтения (" ++ err ++ ")"]
  | .ok cpuUsage =>
    if F64.ge cpuUsage threshold then
      alerts ++ ["CPU: " ++ formatFloat 1 cpuUsage ++ "% (порог " ++ formatFloat 0 threshold
        ++ "%)"]
    else alerts

/-- The memory block of `main`: what it appends to `alerts`. -/
def evalMem (threshold : F64) (mem : Result F64) (alerts : List String) : List String :=
  match mem with
  | .error err => alerts ++ ["RAM: ошибка чтения (" ++ err ++ ")"]
  | .ok memUsage =>
    if F64.ge memUsage threshold then
      alerts ++ ["RAM: " ++ formatFloat 1 memUsage ++ "% (порог " ++ formatFloat 0 threshold
        ++ "%)"]
    else alerts

/-- The alert line of a mount at or above the disk threshold. -/
def diskLine (threshold : F64) (du : DiskUsage) : String :=
  "Диск " ++ du.MountPoint ++ ": " ++ formatFloat 1 du.UsedPercent ++ "% (использовано "
    ++ formatBytes du.UsedBytes ++ " из " ++ formatBytes du.TotalBytes ++ ", порог "
    ++ formatFloat 0 threshold ++ "%)"

/-- The disk block of `main`: what it appends to `alerts`. -/
def evalDisk (threshold : F64) (disk : Result (List DiskUsage)) (alerts : List String) :
    List String :=
  match disk with
  | .error err => alerts ++ ["Диск: ошибка чтения (" ++ err ++ ")"]
  | .ok diskUsages =>
    diskUsages.foldl
      (fun alerts du =>
        if F64.ge du.UsedPercent threshold then alerts ++ [diskLine threshold du] else alerts)
      alerts

/-- The slice `alerts` of `main` after the three blocks, given what the three readers
returned. -/
def collectAlerts (cfg : Config) (cpu mem : Result F64) (disk : Result (List DiskUsage)) :
    List String :=
  evalDisk cfg.DiskThreshold disk (evalMem cfg.MemThreshold mem (evalCPU cfg.CPUThreshold cpu []))

/-- The function `strings.Join`. -/
def Join : List String → String → String
  | [], _ => ""
  | [a], _ => a
  | a :: b :: rest, sep => a ++ sep ++ Join (b :: rest) sep

/-- The function `buildMessage`, given what `os.Hostname` returns (`""` on an error) and
the text `time.Now().Format("2006-01-02 15:04:05 MST")` produces. -/
def buildMessage (hostname stamp : String) (alerts : List String) : String :=
  let hostname := if hostname = "" then "unknown" else hostname
  let lines : List String := []
  let lines := lines ++ ["Мониторинг сервера: " ++ hostname]
  let lines := lines ++ ["Время: " ++ stamp]
  let lines := lines ++ ["Проблемы:"]
  let lines := alerts.foldl (fun lines a => lines ++ ["- " ++ a]) lines
  Join lines "\n"

/-- The bytes of a Go string given as text (UTF-8). -/
def bytesOf (s : String) : List UInt8 := s.data.flatMap String.utf8EncodeChar

/-- The ASCII white space of `strings.TrimSpace`. -/
def isAsciiSpace (b : UInt8) : Bool :=
  b == 9 || b == 10 || b == 11 || b == 12 || b == 13 || b == 32

/-- Dropping the leading white space of a byte string: ASCII white space and the UTF-8
encodings of the other characters of `unicode.IsSpace`. -/
def trimLeftSpace : List UInt8 → List UInt8
  | [] => []
  | b :: rest =>
    if isAsciiSpace b then trimLeftSpace rest
    else
      match rest with
      | c :: rest1 =>
        if b == 0xC2 && (c == 0x85 || c == 0xA0) then trimLeftSpace rest1
        else
          match rest1 with
          | d :: rest2 =>
            if (b == 0xE1 && c == 0x9A && d == 0x80) ||
                (b == 0xE2 && c == 0x80 &&
                  ((0x80 ≤ d && d ≤ 0x8A) || d == 0xA8 || d == 0xA9 || d == 0xAF)) ||
                (b == 0xE2 && c == 0x81 && d == 0x9F) ||
                (b == 0xE3 && c == 0x80 && d == 0x80) then trimLeftSpace rest2
            else b :: rest
          | [] => b :: rest
      | [] => b :: rest

/-- Dropping the trailing white space of a byte string, given reversed. -/
def trimRightSpaceRev : List UInt8 → List UInt8
  | [] => []
  | b :: rest =>
    if isAsciiSpace b then trimRightSpaceRev rest
    else
      match rest with
      | c :: rest1 =>
        if c == 0xC2 && (b == 0x85 || b == 0xA0) then trimRightSpaceRev rest1
        else
          match rest1 with
          | d :: rest2 =>
            if (d == 0xE1 && c == 0x9A && b == 0x80) ||
                (d == 0xE2 && c == 0x80 &&
                  ((0x80 ≤ b && b ≤ 0x8A) || b == 0xA8 || b == 0xA9 || b == 0xAF)) ||
                (d == 0xE2 && c == 0x81 && b == 0x9F) ||
                (d == 0xE3 && c == 0x80 && b == 0x80) then trimRightSpaceRev rest2
            else b :: rest
          | [] => b :: rest
      | [] => b :: rest

/-- The function `strings.TrimSpace` on the bytes of a string. -/
def TrimSpace (s : List UInt8) : List UInt8 :=
  (trimRightSpaceRev (trimLeftSpace s).reverse).reverse

/-- What the HTTP call of `sendAlert` comes to: an error before a response is received
(building the request, transport) or a response with its status code and body. -/
inductive HTTPExchange where
  | failed (err : List UInt8)
  | completed (statusCode : Int) (body : List UInt8)

/-- The function `sendAlert`, given the outcome of the HTTP exchange: `none` is the nil
error, `some text` an error with that text. -/
def sendAlert (exchange : HTTPExchange) : Option (List UInt8) :=
  match exchange with
  | .failed err => some err
  | .completed statusCode resp =>
    if statusCode < 200 || statusCode ≥ 300 then
      let body := resp.take 1024
      some (bytesOf "api status " ++ bytesOf (formatInt statusCode) ++ bytesOf ": "
        ++ TrimSpace body)
    else none

/-- How a run of `main` ends, and the messages it passed to `sendAlert`. -/
structure RunOutcome where
  dispatched : List String
  fatal : Bool
  deriving DecidableEq

/-- The function `main`, given the loaded configuration (or the error of `loadConfig`),
what the three readers return, the host name, the time stamp and the outcome of the HTTP
exchange should one take place. -/
def mainRun (cfg : Result Config) (cpu mem : Result F64) (disk : Result (List DiskUsage))
    (hostname stamp : String) (exchange : HTTPExchange) : RunOutcome :=
  match cfg with
  | .error _ => { dispatched := [], fatal := true }
  | .ok cfg =>
    let alerts := collectAlerts cfg cpu mem disk
    if alerts.length = 0 then { dispatched := [], fatal := false }
    else
      let message := buildMessage hostname stamp alerts
      match sendAlert exchange with
      | some _ => { dispatched := [message], fatal := true }
      | none => { dispatched := [message], fatal := false }

/-! ## Specification helpers -/

/-- A sample of `/proc/meminfo`: 8000000 KiB in total, 2000000 KiB available. -/
def sampleMeminfo : List String :=
  ["MemTotal:        8000000 kB", "MemFree:          500000 kB",
    "MemAvailable:    2000000 kB", "Buffers:          100000 kB"]

/-- A sample mount table: the root filesystem and a `proc` mount. -/
def sampleMounts : List String :=
  ["/dev/sda1 / ext4 rw,relatime 0 0", "proc /proc proc rw,nosuid,nodev,noexec 0 0"]

/-- Sample statistics: 1000 blocks of 4096 bytes, 250 of them available, for every path. -/
def sampleStatfs : String → Option Statfs_t := fun _ => some ⟨4096, 1000, 250⟩

/-- Splitting at line feeds: the second argument is the line being read, reversed. -/
def splitAtNewline : List Char → List Char → List String
  | [], cur => [String.mk cur.reverse]
  | c :: cs, cur =>
    if c = '\n' then String.mk cur.reverse :: splitAtNewline cs []
    else splitAtNewline cs (c :: cur)

/-- The lines of a text: the pieces between its line feeds. -/
def splitLines (s : String) : List String := splitAtNewline s.data []

/-- A sample configuration with the default thresholds. -/
def sampleConfig : Config :=
  { APIURL := "https://acmen.ru/api/v1/telegram/", APIToken := "token", ChatID := "42",
    MessageThreadID := "", CPUThreshold := F64.finite 80, MemThreshold := F64.finite 80,
    DiskThreshold := F64.finite 80 }

/-- Sample statistics in which the mount point `/mnt/gone` cannot be statted. -/
def sampleStatfsGone : String → Option Statfs_t :=
  fun p => if p = "/mnt/gone" then none else some ⟨4096, 1000, 250⟩

/-- A sample mount table with a mount that has gone away. -/
def sampleMountsGone : List String :=
  ["/dev/sda1 / ext4 rw,relatime 0 0", "/dev/sdc1 /mnt/gone ext4 rw,relatime 0 0",
    "/dev/sdb1 /data xfs rw,relatime 0 0"]

/-- The value of the expression `float64(x) / float64(d) * 100` shared by the three
readers, for `uint64` operands with `d` positive. -/
def percentValue (x d : Nat) : ℚ :=
  roundToF64 (roundToF64 (roundToF64 (x : ℚ) / roundToF64 (d : ℚ)) * 100)

/-! ## Rounding lemmas -/

theorem log2Fuel_eq_log (fuel n : Nat) (h : n ≤ fuel) : log2Fuel fuel n = Nat.log 2 n := by
  induction fuel generalizing n with
  | zero =>
    have hn : n = 0 := by omega
    subst hn
    simp [log2Fuel]
  | succ fuel ih =>
    unfold log2Fuel
    by_cases h2 : n < 2
    · rw [if_pos h2, Nat.log_of_lt h2]
    · rw [if_neg h2, Nat.log_of_one_lt_of_le (by decide) (by omega), ih (n / 2) (by omega)]

theorem ilog2_eq_log (n : Nat) : ilog2 n = Nat.log 2 n :=
  log2Fuel_eq_log n n le_rfl

theorem pow_ilog2_le (n : Nat) (h : n ≠ 0) : 2 ^ ilog2 n ≤ n := by
  rw [ilog2_eq_log]
  exact Nat.pow_log_le_self 2 h

theorem lt_pow_ilog2_succ (n : Nat) : n < 2 ^ (ilog2 n + 1) := by
  rw [ilog2_eq_log]
  exact Nat.lt_pow_succ_log_self (by decide) n

theorem floorLog2Frac_spec (n d : Nat) (hn : n ≠ 0) (hd : d ≠ 0) :
    (2 : ℚ) ^ floorLog2Frac n d ≤ (n : ℚ) / d ∧
      (n : ℚ) / d < (2 : ℚ) ^ (floorLog2Frac n d + 1) := by
  have ha1 := pow_ilog2_le n hn
  have ha2 := lt_pow_ilog2_succ n
  have hb1 := pow_ilog2_le d hd
  have hb2 := lt_pow_ilog2_succ d
  have hdpos : (0 : ℚ) < (d : ℚ) := by
    have : 0 < d := Nat.pos_of_ne_zero hd
    exact_mod_cast this
  have h2 : (2 : ℚ) ≠ 0 := by norm_num
  have hbpos : (0 : ℚ) < (2 : ℚ) ^ ilog2 d := by positivity
  unfold floorLog2Frac
  simp only []
  generalize ilog2 n = a at *
  generalize ilog2 d = b at *
  have ha1q : (2 : ℚ) ^ a ≤ n := by exact_mod_cast ha1
  have ha2q : (n : ℚ) < 2 ^ (a + 1) := by exact_mod_cast ha2
  have hb1q : (2 : ℚ) ^ b ≤ d := by exact_mod_cast hb1
  have hb2q : (d : ℚ) < 2 ^ (b + 1) := by exact_mod_cast hb2
  have hnpos : (0 : ℚ) < n := lt_of_lt_of_le (by positivity) ha1q
  have hapos : (0 : ℚ) < (2 : ℚ) ^ a := by positivity
  by_cases hc : n * 2 ^ b < d * 2 ^ a
  · rw [if_pos hc]
    have hcq : (n : ℚ) * 2 ^ b < d * 2 ^ a := by exact_mod_cast hc
    have e1 : (2 : ℚ) ^ ((a : ℤ) - b - 1) = 2 ^ a / (2 ^ b * 2) := by
      rw [zpow_sub₀ h2, zpow_sub₀ h2, zpow_natCast, zpow_natCast, zpow_one, div_div]
    have e2 : (2 : ℚ) ^ ((a : ℤ) - b - 1 + 1) = 2 ^ a / 2 ^ b := by
      rw [sub_add_cancel, zpow_sub₀ h2, zpow_natCast, zpow_natCast]
    rw [e1, e2]
    constructor
    · rw [div_le_div_iff₀ (by positivity) hdpos]
      have : (d : ℚ) ≤ 2 ^ b * 2 := by
        have := hb2q.le
        rwa [pow_succ] at this
      nlinarith
    · rw [div_lt_div_iff₀ hdpos hbpos]
      linarith
  · rw [if_neg hc]
    have hcq : (d : ℚ) * 2 ^ a ≤ n * 2 ^ b := by exact_mod_cast (not_lt.mp hc)
    have e1 : (2 : ℚ) ^ ((a : ℤ) - b) = 2 ^ a / 2 ^ b := by
      rw [zpow_sub₀ h2, zpow_natCast, zpow_natCast]
    have e2 : (2 : ℚ) ^ ((a : ℤ) - b + 1) = 2 ^ a * 2 / 2 ^ b := by
      rw [zpow_add₀ h2, zpow_sub₀ h2, zpow_natCast, zpow_natCast, zpow_one]
      ring
    rw [e1, e2]
    constructor
    · rw [div_le_div_iff₀ hbpos hdpos]
      linarith
    · rw [div_lt_div_iff₀ hdpos (by positivity)]
      have : (n : ℚ) < 2 ^ a * 2 := by rwa [pow_succ] at ha2q
      nlinarith

theorem floorLog2_spec (q : ℚ) (hq : 0 < q) :
    (2 : ℚ) ^ floorLog2 q ≤ q ∧ q < (2 : ℚ) ^ (floorLog2 q + 1) := by
  have hnum : 0 < q.num := Rat.num_pos.mpr hq
  have hn0 : q.num.natAbs ≠ 0 := by
    intro h
    have := Int.natAbs_eq_zero.mp h
    omega
  have hcast : ((q.num.natAbs : ℕ) : ℚ) = (q.num : ℚ) := by
    have h1 : ((q.num.natAbs : ℕ) : ℤ) = q.num := Int.natAbs_of_nonneg hnum.le
    rw [← Int.cast_natCast, h1]
  have hqe : ((q.num.natAbs : ℕ) : ℚ) / (q.den : ℚ) = q := by
    rw [hcast]
    exact Rat.num_div_den q
  have := floorLog2Frac_spec q.num.natAbs q.den hn0 q.den_nz
  rw [hqe] at this
  exact this

/-- The binary exponent is determined by the binade bounds. -/
theorem floorLog2_unique (q : ℚ) (e : ℤ) (h1 : (2 : ℚ) ^ e ≤ q) (h2 : q < (2 : ℚ) ^ (e + 1)) :
    floorLog2 q = e := by
  have hq : 0 < q := lt_of_lt_of_le (zpow_pos (by norm_num) e) h1
  obtain ⟨s1, s2⟩ := floorLog2_spec q hq
  have a1 : floorLog2 q < e + 1 :=
    (zpow_lt_zpow_iff_right₀ (by norm_num : (1 : ℚ) < 2)).mp (lt_of_le_of_lt s1 h2)
  have a2 : e < floorLog2 q + 1 :=
    (zpow_lt_zpow_iff_right₀ (by norm_num : (1 : ℚ) < 2)).mp (lt_of_le_of_lt h1 s2)
  omega

theorem floorLog2_mono (a b : ℚ) (ha : 0 < a) (hab : a ≤ b) : floorLog2 a ≤ floorLog2 b := by
  obtain ⟨s1, _⟩ := floorLog2_spec a ha
  obtain ⟨_, t2⟩ := floorLog2_spec b (lt_of_lt_of_le ha hab)
  have : floorLog2 a < floorLog2 b + 1 :=
    (zpow_lt_zpow_iff_right₀ (by norm_num : (1 : ℚ) < 2)).mp
      (lt_of_le_of_lt s1 (lt_of_le_of_lt hab t2))
  omega

theorem roundHalfEven_intCast (k : ℤ) : roundHalfEven (k : ℚ) = k := by
  unfold roundHalfEven
  simp

theorem floor_le_roundHalfEven (y : ℚ) : ⌊y⌋ ≤ roundHalfEven y := by
  unfold roundHalfEven
  simp only []
  split_ifs <;> omega

theorem roundHalfEven_le_floor_add_one (y : ℚ) : roundHalfEven y ≤ ⌊y⌋ + 1 := by
  unfold roundHalfEven
  simp only []
  split_ifs <;> omega

theorem roundHalfEven_mono (a b : ℚ) (hab : a ≤ b) : roundHalfEven a ≤ roundHalfEven b := by
  have hfl : ⌊a⌋ ≤ ⌊b⌋ := Int.floor_mono hab
  rcases lt_or_eq_of_le hfl with hlt | heq
  · calc roundHalfEven a ≤ ⌊a⌋ + 1 := roundHalfEven_le_floor_add_one a
      _ ≤ ⌊b⌋ := hlt
      _ ≤ roundHalfEven b := floor_le_roundHalfEven b
  · have hr : a - (⌊a⌋ : ℚ) ≤ b - (⌊b⌋ : ℚ) := by
      rw [heq]
      linarith
    unfold roundHalfEven
    simp only []
    rw [heq] at hr ⊢
    split_ifs <;> first | omega | (exfalso; linarith)

/-- The rounded integer is within one half of the argument. -/
theorem roundHalfEven_near (y : ℚ) :
    y - 1 / 2 ≤ (roundHalfEven y : ℚ) ∧ (roundHalfEven y : ℚ) ≤ y + 1 / 2 := by
  have h1 : (⌊y⌋ : ℚ) ≤ y := Int.floor_le y
  have h2 : y < (⌊y⌋ : ℚ) + 1 := Int.lt_floor_add_one y
  unfold roundHalfEven
  simp only []
  split_ifs with c1 c2 c3 <;> push_cast <;> constructor <;> linarith

theorem ulp_pos (a : ℚ) : 0 < ulp a := by
  unfold ulp
  exact zpow_pos (by norm_num) _

theorem roundToF64_zero : roundToF64 0 = 0 := by
  unfold roundToF64
  simp

theorem roundToF64_of_pos (q : ℚ) (hq : 0 < q) :
    roundToF64 q = (roundHalfEven (q / ulp q) : ℚ) * ulp q := by
  unfold roundToF64
  rw [if_neg (ne_of_gt hq), if_pos hq]

theorem two_pow_53_cast : (((2 : ℤ) ^ 53 : ℤ) : ℚ) = (2 : ℚ) ^ (53 : ℤ) := by norm_num

theorem two_pow_52_cast : (((2 : ℤ) ^ 52 : ℤ) : ℚ) = (2 : ℚ) ^ (52 : ℤ) := by norm_num

/-- A positive rational rounds to at most the top of its binade. -/
theorem roundToF64_le_pow (a : ℚ) (ha : 0 < a) :
    roundToF64 a ≤ (2 : ℚ) ^ (max (floorLog2 a) (-1022) + 1) := by
  have h2 : (2 : ℚ) ≠ 0 := by norm_num
  obtain ⟨_, s2⟩ := floorLog2_spec a ha
  rw [roundToF64_of_pos a ha]
  have hu := ulp_pos a
  have hle : floorLog2 a ≤ max (floorLog2 a) (-1022) := le_max_left _ _
  unfold ulp at hu ⊢
  generalize max (floorLog2 a) (-1022) = e at *
  have hae : a ≤ (2 : ℚ) ^ (e + 1) :=
    le_trans s2.le (zpow_le_zpow_right₀ (by norm_num) (by omega))
  have hsplit : (2 : ℚ) ^ (e + 1) = (2 : ℚ) ^ (53 : ℤ) * (2 : ℚ) ^ (e - 52) := by
    rw [← zpow_add₀ h2]
    congr 1
    ring
  have hq : a / (2 : ℚ) ^ (e - 52) ≤ (((2 : ℤ) ^ 53 : ℤ) : ℚ) := by
    rw [two_pow_53_cast, div_le_iff₀ hu, ← hsplit]
    exact hae
  have hr := roundHalfEven_mono _ _ hq
  rw [roundHalfEven_intCast] at hr
  have hrq : (roundHalfEven (a / (2 : ℚ) ^ (e - 52)) : ℚ) ≤ (2 : ℚ) ^ (53 : ℤ) := by
    rw [← two_pow_53_cast]
    exact_mod_cast hr
  rw [hsplit]
  exact mul_le_mul_of_nonneg_right hrq hu.le

/-- A positive rational at or above the bottom of its binade rounds to at least that
bottom. -/
theorem pow_le_roundToF64 (b : ℚ) (hb : 0 < b)
    (hlow : (2 : ℚ) ^ (max (floorLog2 b) (-1022)) ≤ b) :
    (2 : ℚ) ^ (max (floorLog2 b) (-1022)) ≤ roundToF64 b := by
  have h2 : (2 : ℚ) ≠ 0 := by norm_num
  rw [roundToF64_of_pos b hb]
  have hu := ulp_pos b
  unfold ulp at hu ⊢
  generalize max (floorLog2 b) (-1022) = e at *
  have hsplit : (2 : ℚ) ^ e = (2 : ℚ) ^ (52 : ℤ) * (2 : ℚ) ^ (e - 52) := by
    rw [← zpow_add₀ h2]
    congr 1
    ring
  have hq : (((2 : ℤ) ^ 52 : ℤ) : ℚ) ≤ b / (2 : ℚ) ^ (e - 52) := by
    rw [two_pow_52_cast, le_div_iff₀ hu, ← hsplit]
    exact hlow
  have hr := roundHalfEven_mono _ _ hq
  rw [roundHalfEven_intCast] at hr
  have hrq : (2 : ℚ) ^ (52 : ℤ) ≤ (roundHalfEven (b / (2 : ℚ) ^ (e - 52)) : ℚ) := by
    rw [← two_pow_52_cast]
    exact_mod_cast hr
  rw [hsplit]
  exact mul_le_mul_of_nonneg_right hrq hu.le

theorem roundToF64_nonneg (q : ℚ) (hq : 0 ≤ q) : 0 ≤ roundToF64 q := by
  rcases eq_or_lt_of_le hq with h0 | hpos
  · rw [← h0, roundToF64_zero]
  · rw [roundToF64_of_pos q hpos]
    have h1 : (0 : ℚ) ≤ q / ulp q := div_nonneg hq (ulp_pos q).le
    have h2 := roundHalfEven_mono _ _ h1
    have h3 : roundHalfEven (0 : ℚ) = 0 := by
      have := roundHalfEven_intCast 0
      simpa using this
    rw [h3] at h2
    have h4 : (0 : ℚ) ≤ (roundHalfEven (q / ulp q) : ℚ) := by exact_mod_cast h2
    exact mul_nonneg h4 (ulp_pos q).le

/-- Rounding to binary64 is monotone on the non-negative rationals. -/
theorem roundToF64_mono (a b : ℚ) (ha : 0 ≤ a) (hab : a ≤ b) :
    roundToF64 a ≤ roundToF64 b := by
  rcases eq_or_lt_of_le ha with h0 | hpos
  · rw [← h0, roundToF64_zero]
    exact roundToF64_nonneg b (le_trans ha hab)
  · have hbpos : 0 < b := lt_of_lt_of_le hpos hab
    have hfl := floorLog2_mono a b hpos hab
    have hE : max (floorLog2 a) (-1022) ≤ max (floorLog2 b) (-1022) :=
      max_le_max hfl le_rfl
    rcases eq_or_lt_of_le hE with heq | hlt
    · have hu : ulp a = ulp b := by
        unfold ulp
        rw [heq]
      rw [roundToF64_of_pos a hpos, roundToF64_of_pos b hbpos, hu]
      have hq : a / ulp b ≤ b / ulp b := div_le_div_of_nonneg_right hab (ulp_pos b).le
      have hr := roundHalfEven_mono _ _ hq
      have hrq : (roundHalfEven (a / ulp b) : ℚ) ≤ (roundHalfEven (b / ulp b) : ℚ) := by
        exact_mod_cast hr
      exact mul_le_mul_of_nonneg_right hrq (ulp_pos b).le
    · have hbe : max (floorLog2 b) (-1022) = floorLog2 b := by
        apply max_eq_left
        by_contra hcon
        have h1 : max (floorLog2 b) (-1022) = -1022 := max_eq_right (by omega)
        have h2 : -1022 ≤ max (floorLog2 a) (-1022) := le_max_right _ _
        omega
      have hlow : (2 : ℚ) ^ (max (floorLog2 b) (-1022)) ≤ b := by
        rw [hbe]
        exact (floorLog2_spec b hbpos).1
      calc roundToF64 a ≤ (2 : ℚ) ^ (max (floorLog2 a) (-1022) + 1) := roundToF64_le_pow a hpos
        _ ≤ (2 : ℚ) ^ (max (floorLog2 b) (-1022)) :=
            zpow_le_zpow_right₀ (by norm_num) (by omega)
        _ ≤ roundToF64 b := pow_le_roundToF64 b hbpos hlow


theorem roundToF64_one : roundToF64 1 = 1 := by decide!

theorem roundToF64_hundred : roundToF64 100 = 100 := by decide!

theorem roundToF64_two_pow_64 : roundToF64 ((2 : ℚ) ^ 64) = (2 : ℚ) ^ 64 := by decide!

theorem roundToF64_hundred_two_pow_64 :
    roundToF64 ((2 : ℚ) ^ 64 * 100) = (2 : ℚ) ^ 64 * 100 := by decide!

theorem F64.round_of_lt (q : ℚ) (h0 : 0 ≤ q) (h1 : roundToF64 q < (2 : ℚ) ^ 1024) :
    F64.round q = F64.finite (roundToF64 q) := by
  have hn := roundToF64_nonneg q h0
  unfold F64.round
  simp only []
  rw [if_neg (not_le.mpr h1), if_neg]
  intro hc
  have : (0 : ℚ) < (2 : ℚ) ^ 1024 := by positivity
  linarith

/-- Rounding keeps a non-negative rational below `2 ^ 64` (resp. `2 ^ 64 * 100`) finite. -/
theorem F64.round_of_le (q : ℚ) (h0 : 0 ≤ q) (h1 : q ≤ (2 : ℚ) ^ 64 * 100) :
    F64.round q = F64.finite (roundToF64 q) := by
  apply F64.round_of_lt q h0
  have h2 := roundToF64_mono q _ h0 h1
  rw [roundToF64_hundred_two_pow_64] at h2
  have : (2 : ℚ) ^ 64 * 100 < (2 : ℚ) ^ 1024 := by norm_num
  linarith

theorem roundToF64_natCast_le (n : Nat) (h : n < 2 ^ 64) :
    roundToF64 (n : ℚ) ≤ (2 : ℚ) ^ 64 := by
  have hq : (n : ℚ) ≤ (2 : ℚ) ^ 64 := by exact_mod_cast h.le
  have := roundToF64_mono (n : ℚ) _ (Nat.cast_nonneg n) hq
  rwa [roundToF64_two_pow_64] at this

theorem one_le_roundToF64_natCast (n : Nat) (h : 0 < n) : 1 ≤ roundToF64 (n : ℚ) := by
  have hq : (1 : ℚ) ≤ (n : ℚ) := by exact_mod_cast h
  have := roundToF64_mono 1 (n : ℚ) (by norm_num) hq
  rwa [roundToF64_one] at this

theorem F64.ofUInt64_eq (n : Nat) (h : n < 2 ^ 64) :
    F64.ofUInt64 n = F64.finite (roundToF64 (n : ℚ)) := by
  unfold F64.ofUInt64
  apply F64.round_of_le _ (Nat.cast_nonneg n)
  have hq : (n : ℚ) ≤ (2 : ℚ) ^ 64 := by exact_mod_cast h.le
  linarith

theorem percent_eq (x d : Nat) (hx : x < 2 ^ 64) (hd0 : 0 < d) (hd : d < 2 ^ 64) :
    F64.mul (F64.div (F64.ofUInt64 x) (F64.ofUInt64 d)) (F64.finite 100)
      = F64.finite (percentValue x d) := by
  have hX0 := roundToF64_nonneg (x : ℚ) (Nat.cast_nonneg x)
  have hX1 := roundToF64_natCast_le x hx
  have hD1 := one_le_roundToF64_natCast d hd0
  have hDpos : (0 : ℚ) < roundToF64 (d : ℚ) := by linarith
  have hq0 : 0 ≤ roundToF64 (x : ℚ) / roundToF64 (d : ℚ) := div_nonneg hX0 hDpos.le
  have hq1 : roundToF64 (x : ℚ) / roundToF64 (d : ℚ) ≤ (2 : ℚ) ^ 64 := by
    rw [div_le_iff₀ hDpos]
    nlinarith
  have hQ0 := roundToF64_nonneg _ hq0
  have hQ1 := roundToF64_mono _ _ hq0 hq1
  rw [roundToF64_two_pow_64] at hQ1
  rw [F64.ofUInt64_eq x hx, F64.ofUInt64_eq d hd]
  unfold F64.div
  simp only []
  rw [if_neg (ne_of_gt hDpos), F64.round_of_le _ hq0 (by linarith)]
  unfold F64.mul
  simp only []
  rw [F64.round_of_le _ (by positivity) (by linarith)]
  rfl

theorem percentValue_nonneg (x d : Nat) : 0 ≤ percentValue x d := by
  unfold percentValue
  apply roundToF64_nonneg
  apply mul_nonneg _ (by norm_num)
  apply roundToF64_nonneg
  by_cases hd : d = 0
  · subst hd
    simp [roundToF64_zero]
  · exact div_nonneg (roundToF64_nonneg _ (Nat.cast_nonneg x))
      (roundToF64_nonneg _ (Nat.cast_nonneg d))

theorem percentValue_le_hundred (x d : Nat) (hd0 : 0 < d) (hxd : x ≤ d) :
    percentValue x d ≤ 100 := by
  have hX0 := roundToF64_nonneg (x : ℚ) (Nat.cast_nonneg x)
  have hD1 := one_le_roundToF64_natCast d hd0
  have hDpos : (0 : ℚ) < roundToF64 (d : ℚ) := by linarith
  have hXD : roundToF64 (x : ℚ) ≤ roundToF64 (d : ℚ) :=
    roundToF64_mono _ _ (Nat.cast_nonneg x) (by exact_mod_cast hxd)
  have hq0 : 0 ≤ roundToF64 (x : ℚ) / roundToF64 (d : ℚ) := div_nonneg hX0 hDpos.le
  have hq1 : roundToF64 (x : ℚ) / roundToF64 (d : ℚ) ≤ 1 := (div_le_one hDpos).mpr hXD
  have hQ0 := roundToF64_nonneg _ hq0
  have hQ1 := roundToF64_mono _ _ hq0 hq1
  rw [roundToF64_one] at hQ1
  unfold percentValue
  have := roundToF64_mono (roundToF64 (roundToF64 (x : ℚ) / roundToF64 (d : ℚ)) * 100) 100
    (by positivity) (by linarith)
  rwa [roundToF64_hundred] at this

theorem hundred_le_percentValue (x d : Nat) (hd0 : 0 < d) (hdx : d ≤ x) :
    100 ≤ percentValue x d := by
  have hD1 := one_le_roundToF64_natCast d hd0
  have hDpos : (0 : ℚ) < roundToF64 (d : ℚ) := by linarith
  have hXD : roundToF64 (d : ℚ) ≤ roundToF64 (x : ℚ) :=
    roundToF64_mono _ _ (Nat.cast_nonneg d) (by exact_mod_cast hdx)
  have hq1 : 1 ≤ roundToF64 (x : ℚ) / roundToF64 (d : ℚ) := (one_le_div hDpos).mpr hXD
  have hQ1 := roundToF64_mono _ _ (by norm_num) hq1
  rw [roundToF64_one] at hQ1
  unfold percentValue
  have := roundToF64_mono 100 (roundToF64 (roundToF64 (x : ℚ) / roundToF64 (d : ℚ)) * 100)
    (by norm_num) (by linarith)
  rwa [roundToF64_hundred] at this

/-- In the normal range, rounding to binary64 moves a rational by at most the relative
error `2 ^ (-53)`. -/
theorem roundToF64_rel_err (q : ℚ) (hq : (2 : ℚ) ^ (-1022 : ℤ) ≤ q) :
    q * (1 - (2 : ℚ) ^ (-53 : ℤ)) ≤ roundToF64 q ∧ roundToF64 q ≤ q * (1 + (2 : ℚ) ^ (-53 : ℤ)) := by
  have h2 : (2 : ℚ) ≠ 0 := by norm_num
  have hpos : 0 < q := lt_of_lt_of_le (zpow_pos (by norm_num) _) hq
  obtain ⟨s1, s2⟩ := floorLog2_spec q hpos
  have he : -1022 ≤ floorLog2 q := by
    have : (-1022 : ℤ) < floorLog2 q + 1 :=
      (zpow_lt_zpow_iff_right₀ (by norm_num : (1 : ℚ) < 2)).mp (lt_of_le_of_lt hq s2)
    omega
  have hmax : max (floorLog2 q) (-1022) = floorLog2 q := max_eq_left he
  rw [roundToF64_of_pos q hpos]
  have hu := ulp_pos q
  have hulp : ulp q = (2 : ℚ) ^ floorLog2 q * (2 : ℚ) ^ (-52 : ℤ) := by
    unfold ulp
    rw [hmax, ← zpow_add₀ h2]
    congr 1
  obtain ⟨n1, n2⟩ := roundHalfEven_near (q / ulp q)
  have hy : q / ulp q * ulp q = q := div_mul_cancel₀ q (ne_of_gt hu)
  have m1 : (q / ulp q - 1 / 2) * ulp q ≤ (roundHalfEven (q / ulp q) : ℚ) * ulp q :=
    mul_le_mul_of_nonneg_right n1 hu.le
  have m2 : (roundHalfEven (q / ulp q) : ℚ) * ulp q ≤ (q / ulp q + 1 / 2) * ulp q :=
    mul_le_mul_of_nonneg_right n2 hu.le
  rw [sub_mul, hy] at m1
  rw [add_mul, hy] at m2
  have hhalf : 1 / 2 * ulp q ≤ q * (2 : ℚ) ^ (-53 : ℤ) := by
    have e53 : (2 : ℚ) ^ (-53 : ℤ) = 1 / 2 * (2 : ℚ) ^ (-52 : ℤ) := by norm_num
    rw [hulp, e53]
    have hc : (0 : ℚ) ≤ 1 / 2 * (2 : ℚ) ^ (-52 : ℤ) := by positivity
    nlinarith [mul_le_mul_of_nonneg_right s1 hc]
  constructor <;> linarith

/-- The `float64` percentage is within the relative error `2 ^ (-50)` of the exact
quotient. -/
theorem percentValue_rel_err (x d : Nat) (hx0 : 0 < x) (hd0 : 0 < d)
    (hd : d < 2 ^ 64) :
    (x : ℚ) / d * 100 * (1 - (2 : ℚ) ^ (-50 : ℤ)) ≤ percentValue x d ∧
      percentValue x d ≤ (x : ℚ) / d * 100 * (1 + (2 : ℚ) ^ (-50 : ℤ)) := by
  unfold percentValue
  have hxq : (1 : ℚ) ≤ (x : ℚ) := by exact_mod_cast hx0
  have hdq : (1 : ℚ) ≤ (d : ℚ) := by exact_mod_cast hd0
  have hsmall : (2 : ℚ) ^ (-1022 : ℤ) ≤ (2 : ℚ) ^ (-64 : ℤ) :=
    zpow_le_zpow_right₀ (by norm_num) (by norm_num)
  have hsmall1 : (2 : ℚ) ^ (-64 : ℤ) ≤ 1 := by norm_num
  obtain ⟨x1, x2⟩ := roundToF64_rel_err (x : ℚ) (by linarith)
  obtain ⟨d1, d2⟩ := roundToF64_rel_err (d : ℚ) (by linarith)
  have hX1 := one_le_roundToF64_natCast x hx0
  have hD1 := one_le_roundToF64_natCast d hd0
  have hDle := roundToF64_natCast_le d hd
  generalize roundToF64 (x : ℚ) = X at *
  generalize roundToF64 (d : ℚ) = D at *
  have hDpos : (0 : ℚ) < D := by linarith
  have hq64 : (2 : ℚ) ^ (-64 : ℤ) ≤ X / D := by
    rw [le_div_iff₀ hDpos]
    have e : (2 : ℚ) ^ (-64 : ℤ) * (2 : ℚ) ^ 64 = 1 := by norm_num
    nlinarith [zpow_pos (by norm_num : (0 : ℚ) < 2) (-64)]
  obtain ⟨q1, q2⟩ := roundToF64_rel_err (X / D) (by linarith)
  have hQ64 : (2 : ℚ) ^ (-64 : ℤ) ≤ roundToF64 (X / D) := by
    have := roundToF64_mono _ _ (zpow_pos (by norm_num : (0 : ℚ) < 2) (-64)).le hq64
    have e : roundToF64 ((2 : ℚ) ^ (-64 : ℤ)) = (2 : ℚ) ^ (-64 : ℤ) := by decide!
    rwa [e] at this
  generalize roundToF64 (X / D) = Q at *
  obtain ⟨u1, u2⟩ := roundToF64_rel_err (Q * 100) (by linarith)
  generalize roundToF64 (Q * 100) = U at *
  have hε : (2 : ℚ) ^ (-53 : ℤ) = 1 / 9007199254740992 := by norm_num
  have hε50 : (2 : ℚ) ^ (-50 : ℤ) = 1 / 1125899906842624 := by norm_num
  rw [hε] at x1 x2 d1 d2 q1 q2 u1 u2
  rw [hε50]
  have hdpos : (0 : ℚ) < d := by linarith
  have hxpos : (0 : ℚ) < x := by linarith
  have hXD1 : (x : ℚ) / d * ((1 - 1 / 9007199254740992) / (1 + 1 / 9007199254740992)) ≤ X / D := by
    rw [le_div_iff₀ hDpos]
    have h1 : (x : ℚ) / d * ((1 - 1 / 9007199254740992) / (1 + 1 / 9007199254740992)) * D
        ≤ (x : ℚ) / d * ((1 - 1 / 9007199254740992) / (1 + 1 / 9007199254740992))
          * (d * (1 + 1 / 9007199254740992)) :=
      mul_le_mul_of_nonneg_left d2 (by positivity)
    have e : (x : ℚ) / d * ((1 - 1 / 9007199254740992) / (1 + 1 / 9007199254740992))
          * (d * (1 + 1 / 9007199254740992)) = x * (1 - 1 / 9007199254740992) := by
      field_simp
    linarith
  have hXD2 : X / D ≤ (x : ℚ) / d * ((1 + 1 / 9007199254740992) / (1 - 1 / 9007199254740992)) := by
    rw [div_le_iff₀ hDpos]
    have h1 : (x : ℚ) / d * ((1 + 1 / 9007199254740992) / (1 - 1 / 9007199254740992))
          * (d * (1 - 1 / 9007199254740992))
        ≤ (x : ℚ) / d * ((1 + 1 / 9007199254740992) / (1 - 1 / 9007199254740992)) * D :=
      mul_le_mul_of_nonneg_left d1 (by positivity)
    have e : (x : ℚ) / d * ((1 + 1 / 9007199254740992) / (1 - 1 / 9007199254740992))
          * (d * (1 - 1 / 9007199254740992)) = x * (1 + 1 / 9007199254740992) := by
      field_simp
    linarith
  have hr : (0 : ℚ) ≤ (x : ℚ) / d := by positivity
  have hy0 : (0 : ℚ) ≤ X / D := by positivity
  have hQ0 : (0 : ℚ) ≤ Q := by
    have : (0 : ℚ) < (2 : ℚ) ^ (-64 : ℤ) := by positivity
    linarith
  generalize (x : ℚ) / d = r at *
  generalize X / D = y at *
  constructor
  · calc r * 100 * (1 - 1 / 1125899906842624)
        ≤ r * ((1 - 1 / 9007199254740992) / (1 + 1 / 9007199254740992))
            * (1 - 1 / 9007199254740992) * 100 * (1 - 1 / 9007199254740992) := by
          have hc : (100 : ℚ) * (1 - 1 / 1125899906842624)
              ≤ ((1 - 1 / 9007199254740992) / (1 + 1 / 9007199254740992))
                * (1 - 1 / 9007199254740992) * 100 * (1 - 1 / 9007199254740992) := by
            norm_num
          nlinarith [mul_le_mul_of_nonneg_left hc hr]
      _ ≤ y * (1 - 1 / 9007199254740992) * 100 * (1 - 1 / 9007199254740992) := by
          gcongr
      _ ≤ Q * 100 * (1 - 1 / 9007199254740992) := by
          gcongr
      _ ≤ U := u1
  · calc U ≤ Q * 100 * (1 + 1 / 9007199254740992) := u2
      _ ≤ y * (1 + 1 / 9007199254740992) * 100 * (1 + 1 / 9007199254740992) := by
          gcongr
      _ ≤ r * ((1 + 1 / 9007199254740992) / (1 - 1 / 9007199254740992))
            * (1 + 1 / 9007199254740992) * 100 * (1 + 1 / 9007199254740992) := by
          gcongr
      _ ≤ r * 100 * (1 + 1 / 1125899906842624) := by
          have hc : ((1 + 1 / 9007199254740992) / (1 - 1 / 9007199254740992))
                * (1 + 1 / 9007199254740992) * 100 * (1 + 1 / 9007199254740992)
              ≤ (100 : ℚ) * (1 + 1 / 1125899906842624) := by
            norm_num
          nlinarith [mul_le_mul_of_nonneg_left hc hr]

theorem percentValue_zero (d : Nat) : percentValue 0 d = 0 := by
  unfold percentValue
  simp [roundToF64_zero]

/-! ## CPU usage -/

theorem subU64_lt (a b : Nat) : subU64 a b < 2 ^ 64 :=
  Nat.mod_lt _ (by norm_num)

theorem subU64_of_le (a b : Nat) (ha : a < 2 ^ 64) (hba : b ≤ a) : subU64 a b = a - b := by
  unfold subU64
  omega

theorem subU64_of_lt (a b : Nat) (hb : b < 2 ^ 64) (hab : a < b) :
    subU64 a b = a + 2 ^ 64 - b := by
  unfold subU64
  omega

/-- The value `readCPUUsage` returns once the total delta is positive: the percentage,
clamped from above (the clamp from below never fires on a non-negative value). -/
theorem readCPUUsage_of_pos (A B : cpuSnapshot) (hd : 0 < subU64 B.total A.total) :
    readCPUUsage (.ok A) (.ok B) =
      .ok (F64.finite (min 100
        (percentValue (subU64 (subU64 B.total A.total) (subU64 B.idle A.idle))
          (subU64 B.total A.total)))) := by
  have hp := percent_eq (subU64 (subU64 B.total A.total) (subU64 B.idle A.idle))
    (subU64 B.total A.total) (subU64_lt _ _) hd (subU64_lt _ _)
  have h0 := percentValue_nonneg (subU64 (subU64 B.total A.total) (subU64 B.idle A.idle))
    (subU64 B.total A.total)
  unfold readCPUUsage
  simp only []
  rw [if_neg (by omega), hp]
  generalize percentValue _ _ = p at *
  have hlt : F64.lt (F64.finite p) (F64.finite 0) = false := by
    unfold F64.lt
    simp only [decide_eq_false_iff_not, not_lt]
    exact h0
  rw [hlt]
  simp only [Bool.false_eq_true, if_false]
  by_cases hc : 100 < p
  · have : F64.lt (F64.finite 100) (F64.finite p) = true := by
      unfold F64.lt
      simpa using hc
    rw [this, if_pos rfl, min_eq_left hc.le]
  · have : F64.lt (F64.finite 100) (F64.finite p) = false := by
      unfold F64.lt
      simpa using hc
    rw [this]
    simp only [Bool.false_eq_true, if_false]
    rw [min_eq_right (not_lt.mp hc)]

/-- The error `invalid cpu delta` is returned exactly when the wrapped total delta is
zero, that is, for `uint64` counters, when the two totals are equal; a decreasing total
never yields it. -/
theorem readCPUUsage_error_iff (A B : cpuSnapshot) (hA : A.total < 2 ^ 64)
    (hB : B.total < 2 ^ 64) :
    readCPUUsage (.ok A) (.ok B) = .error "invalid cpu delta" ↔ A.total = B.total := by
  constructor
  · intro h
    by_contra hne
    have hd : 0 < subU64 B.total A.total := by
      unfold subU64
      omega
    rw [readCPUUsage_of_pos A B hd] at h
    exact absurd h (by simp)
  · intro h
    have hz : subU64 B.total A.total = 0 := by
      unfold subU64
      omega
    unfold readCPUUsage
    simp only []
    rw [if_pos (by omega)]

/-- Whenever the idle delta exceeds a positive total delta (no counter decreasing), the
wrapped busy time is at least the total delta and `readCPUUsage` returns exactly 100. -/
theorem readCPUUsage_idle_exceeds (A B : cpuSnapshot) (hBt : B.total < 2 ^ 64)
    (hBi : B.idle < 2 ^ 64) (ht : A.total < B.total) (hi : A.idle ≤ B.idle)
    (hgt : B.total - A.total < B.idle - A.idle) :
    readCPUUsage (.ok A) (.ok B) = .ok (F64.finite 100) := by
  have e1 : subU64 B.total A.total = B.total - A.total := subU64_of_le _ _ hBt ht.le
  have e2 : subU64 B.idle A.idle = B.idle - A.idle := subU64_of_le _ _ hBi hi
  have hd : 0 < subU64 B.total A.total := by omega
  have hval := readCPUUsage_of_pos A B hd
  rw [e1, e2] at hval
  have e3 : subU64 (B.total - A.total) (B.idle - A.idle)
      = (B.total - A.total) + 2 ^ 64 - (B.idle - A.idle) :=
    subU64_of_lt _ _ (by omega) hgt
  rw [e3] at hval
  have h100 := hundred_le_percentValue ((B.total - A.total) + 2 ^ 64 - (B.idle - A.idle))
    (B.total - A.total) (by omega) (by omega)
  rw [min_eq_left h100] at hval
  exact hval

/-- C1, at the failing input: after a counter reset (`second.total < first.total`) the
unsigned delta wraps to a large positive number and `readCPUUsage` returns the
percentage 100 instead of the error `invalid cpu delta`. -/
theorem readCPUUsage_counter_reset :
    readCPUUsage (.ok ⟨800, 1000⟩) (.ok ⟨80, 100⟩) = .ok (F64.finite 100) := by
  decide!

/-- C2: whenever the total delta is positive, `readCPUUsage` returns a finite usage
`u` with `0 ≤ u ≤ 100`. -/
theorem readCPUUsage_in_range (A B : cpuSnapshot) (hd : 0 < subU64 B.total A.total) :
    ∃ u : ℚ, readCPUUsage (.ok A) (.ok B) = .ok (F64.finite u) ∧ 0 ≤ u ∧ u ≤ 100 := by
  refine ⟨_, readCPUUsage_of_pos A B hd, ?_, min_le_left _ _⟩
  exact le_min (by norm_num) (percentValue_nonneg _ _)

theorem readCPUUsage_in_range_witness :
    0 < subU64 2030 2000 ∧
      ∃ u : ℚ, readCPUUsage (.ok ⟨1000, 2000⟩) (.ok ⟨1020, 2030⟩) = .ok (F64.finite u) ∧
        0 ≤ u ∧ u ≤ 100 :=
  ⟨by decide, readCPUUsage_in_range ⟨1000, 2000⟩ ⟨1020, 2030⟩ (by decide)⟩

/-- C3, at the failing input: with `deltaTotal = 50` and `deltaIdle = 60` the unsigned
difference `deltaTotal - deltaIdle` wraps, and `readCPUUsage` returns 100, not 0. -/
theorem readCPUUsage_idle_above_total :
    readCPUUsage (.ok ⟨100, 1000⟩) (.ok ⟨160, 1050⟩) = .ok (F64.finite 100) := by
  decide!

/-- C4 as stated fails: with `deltaTotal = 30` and `deltaIdle = 20` the value returned
is a binary64 number, not the rational `(30 - 20) / 30 * 100`. -/
theorem readCPUUsage_not_exact :
    readCPUUsage (.ok ⟨1000, 2000⟩) (.ok ⟨1020, 2030⟩)
        = .ok (F64.finite (2345624805922133 / 70368744177664)) ∧
      (2345624805922133 / 70368744177664 : ℚ)
        ≠ (((2030 : ℚ) - 2000) - (1020 - 1000)) / (2030 - 2000) * 100 := by
  constructor
  · decide!
  · norm_num

/-- C4, amended: for snapshots with `A.total < B.total`, `A.idle ≤ B.idle` and
`B.idle - A.idle ≤ B.total - A.total`, `readCPUUsage` succeeds and returns the binary64
evaluation of `(deltaTotal - deltaIdle) / deltaTotal * 100`; that value lies in
`[0, 100]`, so no clamp takes effect, and it is within the relative error `2 ^ (-50)`
of the rational value of the formula. -/
theorem readCPUUsage_rounded (A B : cpuSnapshot) (hBt : B.total < 2 ^ 64)
    (hBi : B.idle < 2 ^ 64) (ht : A.total < B.total) (hi : A.idle ≤ B.idle)
    (hle : B.idle - A.idle ≤ B.total - A.total) :
    readCPUUsage (.ok A) (.ok B) = .ok (F64.mul (F64.div
        (F64.ofUInt64 ((B.total - A.total) - (B.idle - A.idle)))
        (F64.ofUInt64 (B.total - A.total))) (F64.finite 100)) ∧
    ∃ u : ℚ, readCPUUsage (.ok A) (.ok B) = .ok (F64.finite u) ∧ 0 ≤ u ∧ u ≤ 100 ∧
      (((B.total : ℚ) - A.total) - ((B.idle : ℚ) - A.idle)) / ((B.total : ℚ) - A.total) * 100
          * (1 - (2 : ℚ) ^ (-50 : ℤ)) ≤ u ∧
      u ≤ (((B.total : ℚ) - A.total) - ((B.idle : ℚ) - A.idle)) / ((B.total : ℚ) - A.total)
          * 100 * (1 + (2 : ℚ) ^ (-50 : ℤ)) := by
  have e1 : subU64 B.total A.total = B.total - A.total := subU64_of_le _ _ hBt ht.le
  have e2 : subU64 B.idle A.idle = B.idle - A.idle := subU64_of_le _ _ hBi hi
  have hd : 0 < subU64 B.total A.total := by omega
  have e3 : subU64 (B.total - A.total) (B.idle - A.idle)
      = (B.total - A.total) - (B.idle - A.idle) := subU64_of_le _ _ (by omega) hle
  have hval := readCPUUsage_of_pos A B hd
  rw [e1, e2, e3] at hval
  have hdpos : 0 < B.total - A.total := by omega
  have hp := percent_eq ((B.total - A.total) - (B.idle - A.idle)) (B.total - A.total)
    (by omega) hdpos (by omega)
  have h100 := percentValue_le_hundred ((B.total - A.total) - (B.idle - A.idle))
    (B.total - A.total) hdpos (Nat.sub_le _ _)
  rw [min_eq_right h100] at hval
  have c1 : ((B.total - A.total : ℕ) : ℚ) = (B.total : ℚ) - A.total := by
    push_cast [ht.le]
    ring
  have c2 : (((B.total - A.total) - (B.idle - A.idle) : ℕ) : ℚ)
      = ((B.total : ℚ) - A.total) - ((B.idle : ℚ) - A.idle) := by
    push_cast [ht.le, hi, hle]
    ring
  refine ⟨by rw [hval, hp], _, hval, percentValue_nonneg _ _, h100, ?_⟩
  rcases Nat.eq_zero_or_pos ((B.total - A.total) - (B.idle - A.idle)) with hz | hpos
  · have hz2 : ((B.total : ℚ) - A.total) - ((B.idle : ℚ) - A.idle) = 0 := by
      rw [← c2, hz]
      simp
    rw [hz, percentValue_zero, hz2]
    simp
  · have := percentValue_rel_err _ _ hpos hdpos (by omega)
    rw [c1, c2] at this
    exact this

theorem readCPUUsage_rounded_witness :
    ((2030 : Nat) < 2 ^ 64 ∧ (1020 : Nat) < 2 ^ 64 ∧ (2000 : Nat) < 2030 ∧
        (1000 : Nat) ≤ 1020 ∧ 1020 - 1000 ≤ 2030 - 2000) ∧
      ∃ u : ℚ, readCPUUsage (.ok ⟨1000, 2000⟩) (.ok ⟨1020, 2030⟩) = .ok (F64.finite u) ∧
        0 ≤ u ∧ u ≤ 100 ∧
        (((2030 : ℕ) : ℚ) - (2000 : ℕ) - (((1020 : ℕ) : ℚ) - (1000 : ℕ)))
            / (((2030 : ℕ) : ℚ) - (2000 : ℕ)) * 100 * (1 - (2 : ℚ) ^ (-50 : ℤ)) ≤ u ∧
        u ≤ (((2030 : ℕ) : ℚ) - (2000 : ℕ) - (((1020 : ℕ) : ℚ) - (1000 : ℕ)))
            / (((2030 : ℕ) : ℚ) - (2000 : ℕ)) * 100 * (1 + (2 : ℚ) ^ (-50 : ℤ)) :=
  ⟨by decide, (readCPUUsage_rounded ⟨1000, 2000⟩ ⟨1020, 2030⟩ (by decide) (by decide)
    (by decide) (by decide) (by decide)).2⟩

/-! ## Memory usage -/

theorem mulU64_lt (a b : Nat) : mulU64 a b < 2 ^ 64 :=
  Nat.mod_lt _ (by norm_num)

theorem parseMeminfoValue_lt (line : String) : parseMeminfoValue line < 2 ^ 64 := by
  unfold parseMeminfoValue
  split
  · split
    · exact mulU64_lt _ _
    · norm_num
  · norm_num

theorem parseMeminfoValue_of_fields (line f0 f1 : String) (rest : List String) (v : Nat)
    (hf : Fields line = f0 :: f1 :: rest) (hv : ParseUint f1 = some v) :
    parseMeminfoValue line = mulU64 v 1024 := by
  unfold parseMeminfoValue
  rw [hf]
  simp only []
  rw [hv]

/-- No line starts with both `MemTotal:` and `MemAvailable:`. -/
theorem hasPrefix_exclusive (l : String) (h : HasPrefix l "MemAvailable:" = true) :
    HasPrefix l "MemTotal:" = false := by
  unfold HasPrefix at *
  by_contra hc
  rw [Bool.not_eq_false] at hc
  rw [List.isPrefixOf_iff_prefix] at h hc
  obtain ⟨t1, h1⟩ := h
  obtain ⟨t2, h2⟩ := hc
  rw [← h2] at h1
  simp at h1

/-- Scaling by a power of two commutes with rounding in the normal range. -/
theorem roundToF64_mul_two_pow (q : ℚ) (k : ℕ) (hq : (2 : ℚ) ^ (-1022 : ℤ) ≤ q) :
    roundToF64 (q * (2 : ℚ) ^ k) = roundToF64 q * (2 : ℚ) ^ k := by
  have h2 : (2 : ℚ) ≠ 0 := by norm_num
  have hkpos : (0 : ℚ) < (2 : ℚ) ^ k := by positivity
  have hpos : 0 < q := lt_of_lt_of_le (zpow_pos (by norm_num) _) hq
  obtain ⟨s1, s2⟩ := floorLog2_spec q hpos
  have he : -1022 ≤ floorLog2 q := by
    have : (-1022 : ℤ) < floorLog2 q + 1 :=
      (zpow_lt_zpow_iff_right₀ (by norm_num : (1 : ℚ) < 2)).mp (lt_of_le_of_lt hq s2)
    omega
  have hfl : floorLog2 (q * (2 : ℚ) ^ k) = floorLog2 q + k := by
    apply floorLog2_unique
    · rw [zpow_add₀ h2, zpow_natCast]
      exact mul_le_mul_of_nonneg_right s1 hkpos.le
    · have : floorLog2 q + (k : ℤ) + 1 = (floorLog2 q + 1) + k := by ring
      rw [this, zpow_add₀ h2, zpow_natCast]
      exact mul_lt_mul_of_pos_right s2 hkpos
  have hulp : ulp (q * (2 : ℚ) ^ k) = ulp q * (2 : ℚ) ^ k := by
    unfold ulp
    rw [hfl, max_eq_left he, max_eq_left (by omega : (-1022 : ℤ) ≤ floorLog2 q + k),
      ← zpow_natCast, ← zpow_add₀ h2]
    congr 1
    ring
  rw [roundToF64_of_pos _ (mul_pos hpos hkpos), roundToF64_of_pos q hpos, hulp,
    mul_div_mul_right _ _ (ne_of_gt hkpos)]
  ring

theorem roundToF64_natCast_mul_1024 (n : ℕ) :
    roundToF64 ((n * 1024 : ℕ) : ℚ) = roundToF64 (n : ℚ) * 1024 := by
  rcases Nat.eq_zero_or_pos n with hz | hpos
  · subst hz
    simp [roundToF64_zero]
  · have h1 : (1 : ℚ) ≤ (n : ℚ) := by exact_mod_cast hpos
    have h2 : (2 : ℚ) ^ (-1022 : ℤ) ≤ 1 := by
      have := zpow_le_zpow_right₀ (by norm_num : (1 : ℚ) ≤ 2) (by norm_num : (-1022 : ℤ) ≤ 0)
      simpa using this
    have := roundToF64_mul_two_pow (n : ℚ) 10 (by linarith)
    have e : ((n * 1024 : ℕ) : ℚ) = (n : ℚ) * (2 : ℚ) ^ 10 := by
      push_cast
      norm_num
    rw [e, this]
    norm_num

/-- The percentage computed from byte counts equals the one computed from the KiB
counts. -/
theorem percentValue_mul_1024 (x d : ℕ) :
    percentValue (x * 1024) (d * 1024) = percentValue x d := by
  unfold percentValue
  rw [roundToF64_natCast_mul_1024, roundToF64_natCast_mul_1024,
    mul_div_mul_right _ _ (by norm_num : (1024 : ℚ) ≠ 0)]

theorem meminfoStep_lt (line : String) (st : Nat × Nat) (h1 : st.1 < 2 ^ 64)
    (h2 : st.2 < 2 ^ 64) :
    (meminfoStep line st).1 < 2 ^ 64 ∧ (meminfoStep line st).2 < 2 ^ 64 := by
  unfold meminfoStep
  split_ifs
  · exact ⟨parseMeminfoValue_lt line, h2⟩
  · exact ⟨h1, parseMeminfoValue_lt line⟩
  · exact ⟨h1, h2⟩

theorem scanMeminfo_lt (lines : List String) (st : Nat × Nat) (h1 : st.1 < 2 ^ 64)
    (h2 : st.2 < 2 ^ 64) :
    (scanMeminfo lines st).1 < 2 ^ 64 ∧ (scanMeminfo lines st).2 < 2 ^ 64 := by
  induction lines generalizing st with
  | nil => exact ⟨h1, h2⟩
  | cons line rest ih =>
    unfold scanMeminfo
    simp only []
    obtain ⟨a1, a2⟩ := meminfoStep_lt line st h1 h2
    split_ifs
    · exact ⟨a1, a2⟩
    · exact ih _ a1 a2

/-- The value `readMemUsage` returns when both scanned values are positive. -/
theorem readMemUsage_of_pos (lines : List String)
    (h1 : 0 < (scanMeminfo lines (0, 0)).1) (h2 : 0 < (scanMeminfo lines (0, 0)).2) :
    readMemUsage lines = .ok (F64.finite (percentValue
      (subU64 (scanMeminfo lines (0, 0)).1 (scanMeminfo lines (0, 0)).2)
      (scanMeminfo lines (0, 0)).1)) := by
  obtain ⟨b1, _⟩ := scanMeminfo_lt lines (0, 0) (by norm_num) (by norm_num)
  unfold readMemUsage
  simp only []
  rw [if_neg (by omega), percent_eq _ _ (subU64_lt _ _) h1 b1]

/-- The scan finds the two values when every `MemTotal:` line carries `T`, every
`MemAvailable:` line carries `A`, and each kind of line is present or already read. -/
theorem scanMeminfo_eq (T A : Nat) (lines : List String)
    (st : Nat × Nat)
    (hTv : ∀ l ∈ lines, HasPrefix l "MemTotal:" = true → parseMeminfoValue l = T)
    (hAv : ∀ l ∈ lines, HasPrefix l "MemAvailable:" = true → parseMeminfoValue l = A)
    (h1 : st.1 = T ∨ (st.1 = 0 ∧ ∃ l ∈ lines, HasPrefix l "MemTotal:" = true))
    (h2 : st.2 = A ∨ (st.2 = 0 ∧ ∃ l ∈ lines, HasPrefix l "MemAvailable:" = true)) :
    scanMeminfo lines st = (T, A) := by
  induction lines generalizing st with
  | nil =>
    rcases h1 with h1 | ⟨_, l, hl, _⟩
    · rcases h2 with h2 | ⟨_, l, hl, _⟩
      · unfold scanMeminfo
        exact Prod.ext h1 h2
      · simp at hl
    · simp at hl
  | cons line rest ih =>
    have hTr : ∀ l ∈ rest, HasPrefix l "MemTotal:" = true → parseMeminfoValue l = T :=
      fun l hl => hTv l (List.mem_cons_of_mem _ hl)
    have hAr : ∀ l ∈ rest, HasPrefix l "MemAvailable:" = true → parseMeminfoValue l = A :=
      fun l hl => hAv l (List.mem_cons_of_mem _ hl)
    have key : ((meminfoStep line st).1 = T ∨
          ((meminfoStep line st).1 = 0 ∧ ∃ l ∈ rest, HasPrefix l "MemTotal:" = true)) ∧
        ((meminfoStep line st).2 = A ∨
          ((meminfoStep line st).2 = 0 ∧ ∃ l ∈ rest, HasPrefix l "MemAvailable:" = true)) := by
      unfold meminfoStep
      by_cases c1 : HasPrefix line "MemTotal:" = true
      · rw [if_pos c1]
        refine ⟨Or.inl (hTv line (List.mem_cons_self _ _) c1), ?_⟩
        rcases h2 with h2 | ⟨h2, l, hl, hp⟩
        · exact Or.inl h2
        · right
          refine ⟨h2, l, ?_, hp⟩
          rcases List.mem_cons.mp hl with rfl | hr
          · rw [hasPrefix_exclusive l hp] at c1
            exact absurd c1 (by simp)
          · exact hr
      · rw [if_neg c1]
        by_cases c2 : HasPrefix line "MemAvailable:" = true
        · rw [if_pos c2]
          refine ⟨?_, Or.inl (hAv line (List.mem_cons_self _ _) c2)⟩
          rcases h1 with h1 | ⟨h1, l, hl, hp⟩
          · exact Or.inl h1
          · right
            refine ⟨h1, l, ?_, hp⟩
            rcases List.mem_cons.mp hl with rfl | hr
            · exact absurd hp c1
            · exact hr
        · rw [if_neg c2]
          constructor
          · rcases h1 with h1 | ⟨h1, l, hl, hp⟩
            · exact Or.inl h1
            · right
              refine ⟨h1, l, ?_, hp⟩
              rcases List.mem_cons.mp hl with rfl | hr
              · exact absurd hp c1
              · exact hr
          · rcases h2 with h2 | ⟨h2, l, hl, hp⟩
            · exact Or.inl h2
            · right
              refine ⟨h2, l, ?_, hp⟩
              rcases List.mem_cons.mp hl with rfl | hr
              · exact absurd hp c2
              · exact hr
    unfold scanMeminfo
    simp only []
    split_ifs with hb
    · obtain ⟨k1, k2⟩ := key
      apply Prod.ext
      · rcases k1 with k1 | ⟨k1, _⟩
        · exact k1
        · omega
      · rcases k2 with k2 | ⟨k2, _⟩
        · exact k2
        · omega
    · exact ih _ hTr hAr key.1 key.2

/-- C5: when the `MemTotal:` lines of the text carry `t` KiB and the `MemAvailable:`
lines carry `a` KiB, with `0 < a ≤ t` and `t * 1024 < 2 ^ 64`, `readMemUsage` succeeds
and returns `float64(t*1024 - a*1024) / float64(t*1024) * 100`, which is the same
`float64` as `float64(t - a) / float64(t) * 100`; it is a finite value in `[0, 100]`
within the relative error `2 ^ (-50)` of the rational `(t - a) / t * 100`, and for
`t = 8000000`, `a = 2000000` it is exactly 75. -/
theorem readMemUsage_value (lines : List String) (t a : Nat)
    (hT : ∃ l ∈ lines, HasPrefix l "MemTotal:" = true)
    (hA : ∃ l ∈ lines, HasPrefix l "MemAvailable:" = true)
    (hTv : ∀ l ∈ lines, HasPrefix l "MemTotal:" = true →
      ∃ f0 f1 rest, Fields l = f0 :: f1 :: rest ∧ ParseUint f1 = some t)
    (hAv : ∀ l ∈ lines, HasPrefix l "MemAvailable:" = true →
      ∃ f0 f1 rest, Fields l = f0 :: f1 :: rest ∧ ParseUint f1 = some a)
    (ha : 0 < a) (hat : a ≤ t) (ht : t * 1024 < 2 ^ 64) :
    readMemUsage lines = .ok (F64.mul (F64.div (F64.ofUInt64 (t * 1024 - a * 1024))
        (F64.ofUInt64 (t * 1024))) (F64.finite 100)) ∧
    F64.mul (F64.div (F64.ofUInt64 (t * 1024 - a * 1024)) (F64.ofUInt64 (t * 1024)))
        (F64.finite 100)
      = F64.mul (F64.div (F64.ofUInt64 (t - a)) (F64.ofUInt64 t)) (F64.finite 100) ∧
    (t = 8000000 → a = 2000000 → readMemUsage lines = .ok (F64.finite 75)) ∧
    ∃ p : ℚ, readMemUsage lines = .ok (F64.finite p) ∧ 0 ≤ p ∧ p ≤ 100 ∧
      ((t : ℚ) - a) / t * 100 * (1 - (2 : ℚ) ^ (-50 : ℤ)) ≤ p ∧
      p ≤ ((t : ℚ) - a) / t * 100 * (1 + (2 : ℚ) ^ (-50 : ℤ)) := by
  have hmT : mulU64 t 1024 = t * 1024 := Nat.mod_eq_of_lt ht
  have hmA : mulU64 a 1024 = a * 1024 := Nat.mod_eq_of_lt (by omega)
  have hscan : scanMeminfo lines (0, 0) = (t * 1024, a * 1024) := by
    apply scanMeminfo_eq
    · intro l hl hp
      obtain ⟨f0, f1, rest, hf, hv⟩ := hTv l hl hp
      rw [parseMeminfoValue_of_fields l f0 f1 rest t hf hv, hmT]
    · intro l hl hp
      obtain ⟨f0, f1, rest, hf, hv⟩ := hAv l hl hp
      rw [parseMeminfoValue_of_fields l f0 f1 rest a hf hv, hmA]
    · exact Or.inr ⟨rfl, hT⟩
    · exact Or.inr ⟨rfl, hA⟩
  have hres := readMemUsage_of_pos lines (by rw [hscan]; simp only []; omega)
    (by rw [hscan]; simp only []; omega)
  rw [hscan] at hres
  simp only [] at hres
  have hsub : subU64 (t * 1024) (a * 1024) = t * 1024 - a * 1024 :=
    subU64_of_le _ _ ht (by omega)
  rw [hsub] at hres
  have htpos : 0 < t := by omega
  have hbytes : t * 1024 - a * 1024 = (t - a) * 1024 := (Nat.sub_mul t a 1024).symm
  have hpe1 := percent_eq (t * 1024 - a * 1024) (t * 1024) (by omega) (by omega) ht
  have hpe2 := percent_eq (t - a) t (by omega) htpos (by omega)
  have hpv : percentValue (t * 1024 - a * 1024) (t * 1024) = percentValue (t - a) t := by
    rw [hbytes, percentValue_mul_1024]
  have h100 := percentValue_le_hundred (t - a) t htpos (Nat.sub_le _ _)
  have c1 : ((t - a : ℕ) : ℚ) = (t : ℚ) - a := by
    push_cast [hat]
    ring
  refine ⟨by rw [hres, hpe1], by rw [hpe1, hpe2, hpv], ?_, percentValue (t - a) t,
    by rw [hres, hpv], percentValue_nonneg _ _, h100, ?_⟩
  · intro h8 h2
    rw [hres, hpv, h8, h2]
    have : percentValue (8000000 - 2000000) 8000000 = 75 := by decide!
    rw [this]
  · rcases Nat.eq_zero_or_pos (t - a) with hz | hpos
    · have hz2 : (t : ℚ) - a = 0 := by
        rw [← c1, hz]
        simp
      rw [hz, percentValue_zero, hz2]
      simp
    · have := percentValue_rel_err (t - a) t hpos htpos (by omega)
      rw [c1] at this
      exact this

theorem readMemUsage_value_witness :
    ((∃ l ∈ sampleMeminfo, HasPrefix l "MemTotal:" = true) ∧
      (∃ l ∈ sampleMeminfo, HasPrefix l "MemAvailable:" = true) ∧
      (∀ l ∈ sampleMeminfo, HasPrefix l "MemTotal:" = true →
        ∃ f0 f1 rest, Fields l = f0 :: f1 :: rest ∧ ParseUint f1 = some 8000000) ∧
      (∀ l ∈ sampleMeminfo, HasPrefix l "MemAvailable:" = true →
        ∃ f0 f1 rest, Fields l = f0 :: f1 :: rest ∧ ParseUint f1 = some 2000000)) ∧
    readMemUsage sampleMeminfo = .ok (F64.finite 75) := by
  have hT : ∃ l ∈ sampleMeminfo, HasPrefix l "MemTotal:" = true :=
    ⟨"MemTotal:        8000000 kB", by simp [sampleMeminfo], by decide⟩
  have hA : ∃ l ∈ sampleMeminfo, HasPrefix l "MemAvailable:" = true :=
    ⟨"MemAvailable:    2000000 kB", by simp [sampleMeminfo], by decide⟩
  have hTv : ∀ l ∈ sampleMeminfo, HasPrefix l "MemTotal:" = true →
      ∃ f0 f1 rest, Fields l = f0 :: f1 :: rest ∧ ParseUint f1 = some 8000000 := by
    intro l hl hp
    simp only [sampleMeminfo, List.mem_cons, List.mem_singleton, List.not_mem_nil,
      or_false] at hl
    rcases hl with rfl | rfl | rfl | rfl
    · exact ⟨"MemTotal:", "8000000", ["kB"], by decide, by decide⟩
    · exact absurd hp (by decide)
    · exact absurd hp (by decide)
    · exact absurd hp (by decide)
  have hAv : ∀ l ∈ sampleMeminfo, HasPrefix l "MemAvailable:" = true →
      ∃ f0 f1 rest, Fields l = f0 :: f1 :: rest ∧ ParseUint f1 = some 2000000 := by
    intro l hl hp
    simp only [sampleMeminfo, List.mem_cons, List.mem_singleton, List.not_mem_nil,
      or_false] at hl
    rcases hl with rfl | rfl | rfl | rfl
    · exact absurd hp (by decide)
    · exact absurd hp (by decide)
    · exact ⟨"MemAvailable:", "2000000", ["kB"], by decide, by decide⟩
    · exact absurd hp (by decide)
  exact ⟨⟨hT, hA, hTv, hAv⟩,
    (readMemUsage_value sampleMeminfo 8000000 2000000 hT hA hTv hAv (by decide) (by decide)
      (by decide)).2.2.1 rfl rfl⟩

theorem scanMeminfo_total_origin (lines : List String) (st : Nat × Nat) :
    (scanMeminfo lines st).1 = st.1 ∨
      ∃ l ∈ lines, HasPrefix l "MemTotal:" = true ∧
        (scanMeminfo lines st).1 = parseMeminfoValue l := by
  induction lines generalizing st with
  | nil => exact Or.inl rfl
  | cons line rest ih =>
    have hstep : (meminfoStep line st).1 = st.1 ∨
        (HasPrefix line "MemTotal:" = true ∧ (meminfoStep line st).1 = parseMeminfoValue line) := by
      unfold meminfoStep
      split_ifs with c1 c2
      · exact Or.inr ⟨c1, rfl⟩
      · exact Or.inl rfl
      · exact Or.inl rfl
    unfold scanMeminfo
    simp only []
    split_ifs with hb
    · rcases hstep with h | ⟨h1, h2⟩
      · exact Or.inl h
      · exact Or.inr ⟨line, List.mem_cons_self _ _, h1, h2⟩
    · rcases ih (meminfoStep line st) with h | ⟨l, hl, hp, hv⟩
      · rcases hstep with h' | ⟨h1, h2⟩
        · exact Or.inl (h.trans h')
        · exact Or.inr ⟨line, List.mem_cons_self _ _, h1, h.trans h2⟩
      · exact Or.inr ⟨l, List.mem_cons_of_mem _ hl, hp, hv⟩

theorem scanMeminfo_available_origin (lines : List String) (st : Nat × Nat) :
    (scanMeminfo lines st).2 = st.2 ∨
      ∃ l ∈ lines, HasPrefix l "MemAvailable:" = true ∧
        (scanMeminfo lines st).2 = parseMeminfoValue l := by
  induction lines generalizing st with
  | nil => exact Or.inl rfl
  | cons line rest ih =>
    have hstep : (meminfoStep line st).2 = st.2 ∨
        (HasPrefix line "MemAvailable:" = true ∧
          (meminfoStep line st).2 = parseMeminfoValue line) := by
      unfold meminfoStep
      split_ifs with c1 c2
      · exact Or.inl rfl
      · exact Or.inr ⟨c2, rfl⟩
      · exact Or.inl rfl
    unfold scanMeminfo
    simp only []
    split_ifs with hb
    · rcases hstep with h | ⟨h1, h2⟩
      · exact Or.inl h
      · exact Or.inr ⟨line, List.mem_cons_self _ _, h1, h2⟩
    · rcases ih (meminfoStep line st) with h | ⟨l, hl, hp, hv⟩
      · rcases hstep with h' | ⟨h1, h2⟩
        · exact Or.inl (h.trans h')
        · exact Or.inr ⟨line, List.mem_cons_self _ _, h1, h.trans h2⟩
      · exact Or.inr ⟨l, List.mem_cons_of_mem _ hl, hp, hv⟩

/-- C6: `readMemUsage` fails with `meminfo values not found` exactly when the total or
the available value is zero when the scan stops, and returns a finite percentage
otherwise. A value is zero unless it was read from a line of its prefix; it is zero
when no such line exists, and a line with fewer than two fields or with a second field
that `ParseUint` rejects reads as zero. -/
theorem readMemUsage_error_iff (lines : List String) :
    (readMemUsage lines = .error "meminfo values not found" ↔
      ((scanMeminfo lines (0, 0)).1 = 0 ∨ (scanMeminfo lines (0, 0)).2 = 0)) ∧
    (¬((scanMeminfo lines (0, 0)).1 = 0 ∨ (scanMeminfo lines (0, 0)).2 = 0) →
      ∃ p : ℚ, readMemUsage lines = .ok (F64.finite p)) ∧
    ((scanMeminfo lines (0, 0)).1 = 0 ∨
      ∃ l ∈ lines, HasPrefix l "MemTotal:" = true ∧
        (scanMeminfo lines (0, 0)).1 = parseMeminfoValue l) ∧
    ((scanMeminfo lines (0, 0)).2 = 0 ∨
      ∃ l ∈ lines, HasPrefix l "MemAvailable:" = true ∧
        (scanMeminfo lines (0, 0)).2 = parseMeminfoValue l) ∧
    ((∀ l ∈ lines, HasPrefix l "MemTotal:" = false) → (scanMeminfo lines (0, 0)).1 = 0) ∧
    ((∀ l ∈ lines, HasPrefix l "MemAvailable:" = false) →
      (scanMeminfo lines (0, 0)).2 = 0) ∧
    (∀ l : String, (Fields l).length < 2 → parseMeminfoValue l = 0) ∧
    (∀ (l f0 f1 : String) (rest : List String), Fields l = f0 :: f1 :: rest →
      ParseUint f1 = none → parseMeminfoValue l = 0) := by
  have ht := scanMeminfo_total_origin lines (0, 0)
  have ha := scanMeminfo_available_origin lines (0, 0)
  refine ⟨?_, ?_, ht, ha, ?_, ?_, ?_, ?_⟩
  · constructor
    · intro h
      by_contra hc
      have h1 : 0 < (scanMeminfo lines (0, 0)).1 := by omega
      have h2 : 0 < (scanMeminfo lines (0, 0)).2 := by omega
      rw [readMemUsage_of_pos lines h1 h2] at h
      exact absurd h (by simp)
    · intro h
      unfold readMemUsage
      simp only []
      rw [if_pos h]
  · intro hc
    have h1 : 0 < (scanMeminfo lines (0, 0)).1 := by omega
    have h2 : 0 < (scanMeminfo lines (0, 0)).2 := by omega
    exact ⟨_, readMemUsage_of_pos lines h1 h2⟩
  · intro hno
    rcases ht with h | ⟨l, hl, hp, _⟩
    · exact h
    · rw [hno l hl] at hp
      exact absurd hp (by simp)
  · intro hno
    rcases ha with h | ⟨l, hl, hp, _⟩
    · exact h
    · rw [hno l hl] at hp
      exact absurd hp (by simp)
  · intro l hl
    unfold parseMeminfoValue
    split
    · rename_i heq
      rw [heq] at hl
      simp only [List.length_cons] at hl
      omega
    · rfl
  · intro l f0 f1 rest hf hv
    unfold parseMeminfoValue
    rw [hf]
    simp only []
    rw [hv]

/-- C7 as stated fails: with `MemAvailable` above `MemTotal` the unsigned difference
wraps and `readMemUsage` returns a value far above 100 instead of an error. -/
theorem readMemUsage_above_hundred :
    readMemUsage ["MemTotal:        8000000 kB", "MemAvailable:    9000000 kB"]
        = .ok (F64.finite (1844674407268555 / 8192)) ∧
      (100 : ℚ) < 1844674407268555 / 8192 := by
  constructor
  · decide!
  · norm_num

/-- C7, amended: `readMemUsage` either fails with `meminfo values not found` or returns
a finite percentage `p ≥ 0`; `p ≤ 100` holds when the available value does not exceed
the total value at the point the scan stops, and when it does exceed it no error is
reported and `p ≥ 100`. -/
theorem readMemUsage_range (lines : List String) :
    readMemUsage lines = .error "meminfo values not found" ∨
      ∃ p : ℚ, readMemUsage lines = .ok (F64.finite p) ∧ 0 ≤ p ∧
        ((scanMeminfo lines (0, 0)).2 ≤ (scanMeminfo lines (0, 0)).1 → p ≤ 100) ∧
        ((scanMeminfo lines (0, 0)).1 < (scanMeminfo lines (0, 0)).2 → 100 ≤ p) := by
  by_cases hc : (scanMeminfo lines (0, 0)).1 = 0 ∨ (scanMeminfo lines (0, 0)).2 = 0
  · left
    unfold readMemUsage
    simp only []
    rw [if_pos hc]
  · right
    have h1 : 0 < (scanMeminfo lines (0, 0)).1 := by omega
    have h2 : 0 < (scanMeminfo lines (0, 0)).2 := by omega
    obtain ⟨b1, b2⟩ := scanMeminfo_lt lines (0, 0) (by norm_num) (by norm_num)
    refine ⟨_, readMemUsage_of_pos lines h1 h2, percentValue_nonneg _ _, ?_, ?_⟩
    · intro hle
      apply percentValue_le_hundred _ _ h1
      rw [subU64_of_le _ _ b1 hle]
      exact Nat.sub_le _ _
    · intro hlt
      apply hundred_le_percentValue _ _ h1
      rw [subU64_of_lt _ _ b2 hlt]
      omega

/-! ## Disk usage -/

theorem scanMounts_append_singleton (E : List String) (s : String → Option Statfs_t)
    (rows : List String) (r : String) :
    scanMounts E s (rows ++ [r]) = diskStep E s (scanMounts E s rows) r := by
  unfold scanMounts
  rw [List.foldl_append]
  rfl

/-- What one iteration does: nothing, or it marks a new mount point of a row whose type
is not excluded and appends at most the entry of that mount point. -/
theorem diskStep_cases (E : List String) (s : String → Option Statfs_t)
    (st : List String × List DiskUsage) (line : String) :
    diskStep E s st line = st ∨
      ∃ mp fs, rowFields line = some (mp, fs) ∧ fs ∉ E ∧ mp ∉ st.1 ∧
        (diskStep E s st line).1 = mp :: st.1 ∧
        ((diskStep E s st line).2 = st.2 ∨
          ∃ stat, s mp = some stat ∧ stat.Blocks ≠ 0 ∧
            (diskStep E s st line).2 = st.2 ++ [diskUsageOf mp stat]) := by
  unfold diskStep
  cases hrf : rowFields line with
  | none => exact Or.inl rfl
  | some p =>
    obtain ⟨mp, fs⟩ := p
    simp only []
    by_cases hE : fs ∈ E
    · rw [if_pos hE]
      exact Or.inl rfl
    · rw [if_neg hE]
      by_cases hS : mp ∈ st.1
      · rw [if_pos hS]
        exact Or.inl rfl
      · rw [if_neg hS]
        right
        refine ⟨mp, fs, rfl, hE, hS, ?_⟩
        cases hst : s mp with
        | none => exact ⟨rfl, Or.inl rfl⟩
        | some stat =>
          simp only []
          by_cases hB : stat.Blocks = 0
          · rw [if_pos hB]
            exact ⟨rfl, Or.inl rfl⟩
          · rw [if_neg hB]
            exact ⟨rfl, Or.inr ⟨stat, rfl, hB, rfl⟩⟩

/-- A row whose type is excluded, or whose mount point is already marked, is skipped. -/
theorem diskStep_skip (E : List String) (s : String → Option Statfs_t)
    (st : List String × List DiskUsage) (line mp fs : String)
    (hr : rowFields line = some (mp, fs)) (h : fs ∈ E ∨ mp ∈ st.1) :
    diskStep E s st line = st := by
  unfold diskStep
  rw [hr]
  simp only []
  by_cases hE : fs ∈ E
  · rw [if_pos hE]
  · rw [if_neg hE, if_pos (h.resolve_left hE)]

theorem diskUsageOf_mountPoint (mp : String) (stat : Statfs_t) :
    (diskUsageOf mp stat).MountPoint = mp := rfl

/-- The invariant of the scan loop. -/
theorem scanMounts_inv (E : List String) (s : String → Option Statfs_t) (rows : List String) :
    (∀ e ∈ (scanMounts E s rows).2, e.MountPoint ∈ (scanMounts E s rows).1) ∧
    ((scanMounts E s rows).2.map DiskUsage.MountPoint).Nodup ∧
    (∀ e ∈ (scanMounts E s rows).2, ∃ stat, s e.MountPoint = some stat ∧ stat.Blocks ≠ 0 ∧
      e = diskUsageOf e.MountPoint stat) ∧
    (∀ mp ∈ (scanMounts E s rows).1, ∃ row ∈ rows, ∃ fs,
      rowFields row = some (mp, fs) ∧ fs ∉ E) ∧
    (∀ row ∈ rows, ∀ mp fs, rowFields row = some (mp, fs) → fs ∉ E →
      mp ∈ (scanMounts E s rows).1) := by
  induction rows using List.reverseRecOn with
  | nil =>
    unfold scanMounts
    simp
  | append_singleton init r ih =>
    obtain ⟨i1, i2, i3, i4, i5⟩ := ih
    rw [scanMounts_append_singleton]
    rcases diskStep_cases E s (scanMounts E s init) r with hsame | ⟨mp, fs, hr, hE, hS, h1, h2⟩
    · rw [hsame]
      refine ⟨i1, i2, i3, ?_, ?_⟩
      · intro m hm
        obtain ⟨row, hrow, fs, h⟩ := i4 m hm
        exact ⟨row, List.mem_append_left _ hrow, fs, h⟩
      · intro row hrow m fs hrf hfs
        rcases List.mem_append.mp hrow with hin | hlast
        · exact i5 row hin m fs hrf hfs
        · rw [List.mem_singleton] at hlast
          subst hlast
          -- the step left the state unchanged although the row is eligible
          by_contra hnot
          have : diskStep E s (scanMounts E s init) row ≠ scanMounts E s init := by
            unfold diskStep
            rw [hrf]
            simp only []
            rw [if_neg hfs, if_neg hnot]
            intro hc
            have hlen := congrArg (fun p => p.1.length) hc
            cases hst : s m with
            | none =>
              rw [hst] at hlen
              simp at hlen
            | some stat =>
              rw [hst] at hlen
              by_cases hB : stat.Blocks = 0
              · simp [hB] at hlen
              · simp [hB] at hlen
          exact this hsame
    · have i4n : ∀ m ∈ (diskStep E s (scanMounts E s init) r).1, ∃ row ∈ init ++ [r], ∃ fs,
          rowFields row = some (m, fs) ∧ fs ∉ E := by
        intro m hm
        rw [h1] at hm
        rcases List.mem_cons.mp hm with rfl | hold
        · exact ⟨r, by simp, fs, hr, hE⟩
        · obtain ⟨row, hrow, fs0, h⟩ := i4 m hold
          exact ⟨row, List.mem_append_left _ hrow, fs0, h⟩
      have i5n : ∀ row ∈ init ++ [r], ∀ m f, rowFields row = some (m, f) → f ∉ E →
          m ∈ (diskStep E s (scanMounts E s init) r).1 := by
        intro row hrow m f hrf hf
        rw [h1]
        rcases List.mem_append.mp hrow with hin | hlast
        · exact List.mem_cons_of_mem _ (i5 row hin m f hrf hf)
        · rw [List.mem_singleton] at hlast
          subst hlast
          rw [hr] at hrf
          have : mp = m := by
            have := Option.some.inj hrf
            exact congrArg Prod.fst this
          rw [this]
          exact List.mem_cons_self _ _
      rcases h2 with hu | ⟨stat, hst, hB, hu⟩
      · rw [hu]
        refine ⟨?_, i2, i3, i4n, i5n⟩
        intro e he
        rw [h1]
        exact List.mem_cons_of_mem _ (i1 e he)
      · rw [hu]
        refine ⟨?_, ?_, ?_, i4n, i5n⟩
        · intro e he
          rw [h1]
          rcases List.mem_append.mp he with hin | hlast
          · exact List.mem_cons_of_mem _ (i1 e hin)
          · rw [List.mem_singleton] at hlast
            rw [hlast, diskUsageOf_mountPoint]
            exact List.mem_cons_self _ _
        · rw [List.map_append, List.nodup_append]
          refine ⟨i2, by simp, ?_⟩
          intro x hx1 hx2
          simp only [List.map_cons, List.map_nil, List.mem_singleton] at hx2
          rw [hx2, diskUsageOf_mountPoint] at hx1
          obtain ⟨e, he, hem⟩ := List.mem_map.mp hx1
          apply hS
          rw [← hem]
          exact i1 e he
        · intro e he
          rcases List.mem_append.mp he with hin | hlast
          · exact i3 e hin
          · rw [List.mem_singleton] at hlast
            rw [hlast, diskUsageOf_mountPoint]
            exact ⟨stat, hst, hB, rfl⟩

theorem scanMounts_append (E : List String) (s : String → Option Statfs_t)
    (pre post : List String) :
    scanMounts E s (pre ++ post) = post.foldl (diskStep E s) (scanMounts E s pre) := by
  unfold scanMounts
  rw [List.foldl_append]

/-- C8 as stated fails: the first row with the mount point `/boot/efi` has an excluded
type, and the entry is produced by the later row with the same mount point; that later
row is not ignored, for without it the result is empty. -/
theorem readDiskUsages_later_row_used :
    rowFields "systemd-1 /boot/efi autofs rw,relatime 0 0" = some ("/boot/efi", "autofs") ∧
    rowFields "/dev/sda1 /boot/efi vfat rw,relatime 0 0" = some ("/boot/efi", "vfat") ∧
    readDiskUsages defaultDiskFSTypeExclude (fun _ => some ⟨4096, 1000, 250⟩)
        ["systemd-1 /boot/efi autofs rw,relatime 0 0",
          "/dev/sda1 /boot/efi vfat rw,relatime 0 0"]
      = [⟨"/boot/efi", F64.finite 75, 3072000, 4096000⟩] ∧
    readDiskUsages defaultDiskFSTypeExclude (fun _ => some ⟨4096, 1000, 250⟩)
        ["systemd-1 /boot/efi autofs rw,relatime 0 0"] = [] := by
  refine ⟨by decide, by decide, by decide!, by decide⟩

/-- C8, amended: the result of `readDiskUsages` holds no mount point twice, and a row
whose mount point already occurs in an earlier row with a type that is not excluded is
ignored: deleting it leaves the result unchanged. The entry of a mount point is thus
produced by the first row with that mount point whose type is not excluded. -/
theorem readDiskUsages_nodup (E : List String) (s : String → Option Statfs_t)
    (rows : List String) :
    ((readDiskUsages E s rows).map DiskUsage.MountPoint).Nodup ∧
    ∀ (pre post : List String) (r mp fs : String), rows = pre ++ r :: post →
      rowFields r = some (mp, fs) →
      (∃ r0 ∈ pre, ∃ fs0, rowFields r0 = some (mp, fs0) ∧ fs0 ∉ E) →
      readDiskUsages E s rows = readDiskUsages E s (pre ++ post) := by
  refine ⟨(scanMounts_inv E s rows).2.1, ?_⟩
  intro pre post r mp fs hrows hr ⟨r0, hr0, fs0, hrf0, hfs0⟩
  have hseen : mp ∈ (scanMounts E s pre).1 :=
    (scanMounts_inv E s pre).2.2.2.2 r0 hr0 mp fs0 hrf0 hfs0
  unfold readDiskUsages
  rw [hrows, scanMounts_append, scanMounts_append, List.foldl_cons,
    diskStep_skip E s _ r mp fs hr (Or.inr hseen)]

/-- C9: every entry of the result comes from a row whose filesystem type is not
excluded; a mount point all of whose rows have an excluded type has no entry, whatever
`statfs` reports for it; and the default exclusion set holds `proc`, `sysfs`, `tmpfs`,
`overlay`, `cgroup` and `cgroup2`. -/
theorem readDiskUsages_excluded (E : List String) (s : String → Option Statfs_t)
    (rows : List String) :
    (∀ e ∈ readDiskUsages E s rows, ∃ row ∈ rows, ∃ fs,
      rowFields row = some (e.MountPoint, fs) ∧ fs ∉ E) ∧
    (∀ p : String, (∀ row ∈ rows, ∀ fs, rowFields row = some (p, fs) → fs ∈ E) →
      ∀ e ∈ readDiskUsages E s rows, e.MountPoint ≠ p) ∧
    ("proc" ∈ defaultDiskFSTypeExclude ∧ "sysfs" ∈ defaultDiskFSTypeExclude ∧
      "tmpfs" ∈ defaultDiskFSTypeExclude ∧ "overlay" ∈ defaultDiskFSTypeExclude ∧
      "cgroup" ∈ defaultDiskFSTypeExclude ∧ "cgroup2" ∈ defaultDiskFSTypeExclude) := by
  obtain ⟨i1, _, _, i4, _⟩ := scanMounts_inv E s rows
  have hfirst : ∀ e ∈ readDiskUsages E s rows, ∃ row ∈ rows, ∃ fs,
      rowFields row = some (e.MountPoint, fs) ∧ fs ∉ E :=
    fun e he => i4 e.MountPoint (i1 e he)
  refine ⟨hfirst, ?_, by decide⟩
  intro p hall e he hp
  obtain ⟨row, hrow, fs, hrf, hfs⟩ := hfirst e he
  rw [hp] at hrf
  exact hfs (hall row hrow fs hrf)

/-- C10 as stated fails: when `statfs` reports more available blocks than total blocks
(here 2000 against 1000, of 4096 bytes) the unsigned difference wraps, and
`UsedBytes + v * s` is not `TotalBytes`. -/
theorem readDiskUsages_available_above_total :
    (readDiskUsages defaultDiskFSTypeExclude (fun _ => some ⟨4096, 1000, 2000⟩)
        ["/dev/sda1 / ext4 rw,relatime 0 0"]).map
          (fun e => (e.MountPoint, e.UsedBytes, e.TotalBytes))
      = [("/", 18446744073705455616, 4096000)] ∧
    18446744073705455616 + 2000 * 4096 ≠ 4096000 := by
  refine ⟨by decide!, by decide⟩

/-- C10, amended: every entry of the result is computed from the statistics `statfs`
reports for its mount point, with `b > 0` total blocks: `TotalBytes` is `b * s` and
`UsedBytes` is `TotalBytes - v * s`, both modulo `2 ^ 64`, `UsedPercent` is
`float64(UsedBytes) / float64(TotalBytes) * 100`, and `UsedBytes + v * s` is
`TotalBytes` modulo `2 ^ 64`. When the block size is not negative, `v ≤ b` and `b * s`
fits 64 bits, the three byte equations hold over the natural numbers. -/
theorem readDiskUsages_bytes (E : List String) (s : String → Option Statfs_t)
    (rows : List String) :
    ∀ e ∈ readDiskUsages E s rows, ∃ stat, s e.MountPoint = some stat ∧ 0 < stat.Blocks ∧
      e.TotalBytes = (stat.Blocks * toU64 stat.Bsize) % 2 ^ 64 ∧
      e.UsedBytes = subU64 e.TotalBytes ((stat.Bavail * toU64 stat.Bsize) % 2 ^ 64) ∧
      e.UsedPercent = F64.mul (F64.div (F64.ofUInt64 e.UsedBytes)
        (F64.ofUInt64 e.TotalBytes)) (F64.finite 100) ∧
      (e.UsedBytes + stat.Bavail * toU64 stat.Bsize) % 2 ^ 64 = e.TotalBytes ∧
      (0 ≤ stat.Bsize → stat.Bavail ≤ stat.Blocks →
        stat.Blocks * stat.Bsize.toNat < 2 ^ 64 →
          e.TotalBytes = stat.Blocks * stat.Bsize.toNat ∧
          e.UsedBytes = stat.Blocks * stat.Bsize.toNat - stat.Bavail * stat.Bsize.toNat ∧
          e.UsedBytes + stat.Bavail * stat.Bsize.toNat = e.TotalBytes) := by
  intro e he
  obtain ⟨stat, hst, hB, heq⟩ := (scanMounts_inv E s rows).2.2.1 e he
  have hpos : 0 < stat.Blocks := Nat.pos_of_ne_zero hB
  refine ⟨stat, hst, hpos, ?_, ?_, ?_, ?_, ?_⟩
  · rw [heq]
    rfl
  · rw [heq]
    rfl
  · rw [heq]
    rfl
  · have h1 : e.TotalBytes = (stat.Blocks * toU64 stat.Bsize) % 2 ^ 64 := by
      rw [heq]
      rfl
    have h2 : e.UsedBytes
        = (e.TotalBytes + 2 ^ 64 - (stat.Bavail * toU64 stat.Bsize) % 2 ^ 64) % 2 ^ 64 := by
      rw [heq]
      rfl
    have h3 : e.TotalBytes < 2 ^ 64 := by
      rw [h1]
      exact Nat.mod_lt _ (by norm_num)
    generalize e.TotalBytes = T at *
    generalize e.UsedBytes = U at *
    generalize stat.Bavail * toU64 stat.Bsize = A at *
    omega
  · intro hs hvb hfit
    have hsz : toU64 stat.Bsize = stat.Bsize.toNat := by
      unfold toU64
      have hlt : stat.Bsize.toNat < 2 ^ 64 := by
        have : stat.Bsize.toNat ≤ stat.Blocks * stat.Bsize.toNat :=
          Nat.le_mul_of_pos_left _ hpos
        omega
      have h1 : stat.Bsize % 2 ^ 64 = stat.Bsize := by
        apply Int.emod_eq_of_lt hs
        omega
      rw [h1]
    have hav : stat.Bavail * stat.Bsize.toNat ≤ stat.Blocks * stat.Bsize.toNat :=
      Nat.mul_le_mul_right _ hvb
    have h1 : e.TotalBytes = (stat.Blocks * stat.Bsize.toNat) % 2 ^ 64 := by
      rw [heq, ← hsz]
      rfl
    have h2 : e.UsedBytes
        = (e.TotalBytes + 2 ^ 64 - (stat.Bavail * stat.Bsize.toNat) % 2 ^ 64) % 2 ^ 64 := by
      rw [heq, ← hsz]
      rfl
    generalize e.TotalBytes = T at *
    generalize e.UsedBytes = U at *
    generalize stat.Bavail * stat.Bsize.toNat = A at *
    generalize stat.Blocks * stat.Bsize.toNat = B at *
    omega

theorem readDiskUsages_bytes_witness :
    (⟨"/", F64.finite 75, 3072000, 4096000⟩ : DiskUsage)
        ∈ readDiskUsages defaultDiskFSTypeExclude sampleStatfs sampleMounts ∧
      ∃ stat, sampleStatfs "/" = some stat ∧ 0 < stat.Blocks ∧
        4096000 = (stat.Blocks * toU64 stat.Bsize) % 2 ^ 64 ∧
        3072000 = subU64 4096000 ((stat.Bavail * toU64 stat.Bsize) % 2 ^ 64) ∧
        F64.finite 75 = F64.mul (F64.div (F64.ofUInt64 3072000) (F64.ofUInt64 4096000))
          (F64.finite 100) ∧
        (3072000 + stat.Bavail * toU64 stat.Bsize) % 2 ^ 64 = 4096000 ∧
        (0 ≤ stat.Bsize → stat.Bavail ≤ stat.Blocks →
          stat.Blocks * stat.Bsize.toNat < 2 ^ 64 →
            4096000 = stat.Blocks * stat.Bsize.toNat ∧
            3072000 = stat.Blocks * stat.Bsize.toNat - stat.Bavail * stat.Bsize.toNat ∧
            3072000 + stat.Bavail * stat.Bsize.toNat = 4096000) :=
  ⟨by decide!, readDiskUsages_bytes defaultDiskFSTypeExclude sampleStatfs sampleMounts
    ⟨"/", F64.finite 75, 3072000, 4096000⟩ (by decide!)⟩


/-- C11 as stated fails: with 1500 available blocks against 1000 total blocks the
unsigned difference wraps; the entry has `UsedBytes` above `TotalBytes` and a used
percentage far above 100. -/
theorem readDiskUsages_above_hundred :
    readDiskUsages defaultDiskFSTypeExclude (fun _ => some ⟨4096, 1000, 1500⟩)
        ["/dev/sdb1 /data xfs rw,relatime 0 0"]
      = [⟨"/data", F64.finite (3602879701895997 / 8), 18446744073707503616, 4096000⟩] ∧
    (100 : ℚ) < 3602879701895997 / 8 ∧ 4096000 < 18446744073707503616 := by
  refine ⟨by decide!, by norm_num, by decide⟩

/-- C11, amended: every entry whose statistics are consistent (positive block size,
available blocks not above total blocks, `b * s` below `2 ^ 64`) has
`UsedBytes ≤ TotalBytes` and a finite `UsedPercent` in `[0, 100]`. -/
theorem readDiskUsages_percent_range (E : List String) (s : String → Option Statfs_t)
    (rows : List String) :
    ∀ e ∈ readDiskUsages E s rows, ∃ stat, s e.MountPoint = some stat ∧ 0 < stat.Blocks ∧
      (0 < stat.Bsize → stat.Bavail ≤ stat.Blocks →
        stat.Blocks * stat.Bsize.toNat < 2 ^ 64 →
          e.UsedBytes ≤ e.TotalBytes ∧
          ∃ p : ℚ, e.UsedPercent = F64.finite p ∧ 0 ≤ p ∧ p ≤ 100) := by
  intro e he
  obtain ⟨stat, hst, hB, heq⟩ := (scanMounts_inv E s rows).2.2.1 e he
  have hpos : 0 < stat.Blocks := Nat.pos_of_ne_zero hB
  refine ⟨stat, hst, hpos, ?_⟩
  intro hs hvb hfit
  have hszpos : 0 < stat.Bsize.toNat := by omega
  have hlt : stat.Bsize.toNat < 2 ^ 64 := by
    have : stat.Bsize.toNat ≤ stat.Blocks * stat.Bsize.toNat :=
      Nat.le_mul_of_pos_left _ hpos
    omega
  have hsz : toU64 stat.Bsize = stat.Bsize.toNat := by
    unfold toU64
    have h1 : stat.Bsize % 2 ^ 64 = stat.Bsize := by
      apply Int.emod_eq_of_lt hs.le
      omega
    rw [h1]
  have hav : stat.Bavail * stat.Bsize.toNat ≤ stat.Blocks * stat.Bsize.toNat :=
    Nat.mul_le_mul_right _ hvb
  have htot : 0 < stat.Blocks * stat.Bsize.toNat := Nat.mul_pos hpos hszpos
  have h1 : e.TotalBytes = stat.Blocks * stat.Bsize.toNat := by
    rw [heq]
    show mulU64 stat.Blocks (toU64 stat.Bsize) = _
    rw [hsz]
    exact Nat.mod_eq_of_lt hfit
  have h2 : e.UsedBytes = stat.Blocks * stat.Bsize.toNat - stat.Bavail * stat.Bsize.toNat := by
    rw [heq]
    show subU64 (mulU64 stat.Blocks (toU64 stat.Bsize)) (mulU64 stat.Bavail (toU64 stat.Bsize))
      = _
    rw [hsz]
    unfold mulU64
    rw [Nat.mod_eq_of_lt hfit, Nat.mod_eq_of_lt (by omega)]
    exact subU64_of_le _ _ hfit hav
  have h3 : e.UsedPercent = F64.mul (F64.div (F64.ofUInt64 e.UsedBytes)
      (F64.ofUInt64 e.TotalBytes)) (F64.finite 100) := by
    rw [heq]
    rfl
  have hU : e.UsedBytes ≤ e.TotalBytes := by
    rw [h1, h2]
    exact Nat.sub_le _ _
  refine ⟨hU, percentValue e.UsedBytes e.TotalBytes, ?_, percentValue_nonneg _ _, ?_⟩
  · rw [h3]
    exact percent_eq _ _ (by omega) (by omega) (by omega)
  · exact percentValue_le_hundred _ _ (by omega) hU

theorem readDiskUsages_percent_range_witness :
    (⟨"/", F64.finite 75, 3072000, 4096000⟩ : DiskUsage)
        ∈ readDiskUsages defaultDiskFSTypeExclude sampleStatfs sampleMounts ∧
      ∃ stat, sampleStatfs "/" = some stat ∧ 0 < stat.Blocks ∧
        (0 < stat.Bsize → stat.Bavail ≤ stat.Blocks →
          stat.Blocks * stat.Bsize.toNat < 2 ^ 64 →
            3072000 ≤ 4096000 ∧
            ∃ p : ℚ, F64.finite 75 = F64.finite p ∧ 0 ≤ p ∧ p ≤ 100) :=
  ⟨by decide!, readDiskUsages_percent_range defaultDiskFSTypeExclude sampleStatfs sampleMounts
    ⟨"/", F64.finite 75, 3072000, 4096000⟩ (by decide!)⟩

/-- A row of a mount point that cannot be statted, or reports no blocks, leaves the
entries untouched and marks at most that mount point. -/
theorem diskStep_dead (E : List String) (s : String → Option Statfs_t)
    (st : List String × List DiskUsage) (r mp fs : String)
    (hr : rowFields r = some (mp, fs))
    (hdead : s mp = none ∨ ∃ stat, s mp = some stat ∧ stat.Blocks = 0) :
    (diskStep E s st r).2 = st.2 ∧
      ∀ m, m ≠ mp → (m ∈ (diskStep E s st r).1 ↔ m ∈ st.1) := by
  rcases diskStep_cases E s st r with hsame | ⟨mp1, fs1, hr1, _, _, h1, h2⟩
  · rw [hsame]
    exact ⟨rfl, fun _ _ => Iff.rfl⟩
  · rw [hr] at hr1
    have hmp : mp = mp1 := congrArg Prod.fst (Option.some.inj hr1)
    subst hmp
    constructor
    · rcases h2 with h2 | ⟨stat, hst, hB, _⟩
      · exact h2
      · exfalso
        rcases hdead with hn | ⟨stat1, hst1, hB1⟩
        · rw [hn] at hst
          exact absurd hst (by simp)
        · rw [hst1] at hst
          have := Option.some.inj hst
          rw [this] at hB1
          exact hB hB1
    · intro m hm
      rw [h1, List.mem_cons]
      constructor
      · intro h
        exact h.resolve_left hm
      · intro h
        exact Or.inr h

/-- A row of another mount point is handled alike from two states that hold the same
entries and agree on every mark but that of `mp`. -/
theorem diskStep_sim (E : List String) (s : String → Option Statfs_t)
    (st st1 : List String × List DiskUsage) (r mp : String)
    (hr : (rowFields r).map Prod.fst ≠ some mp) (h2 : st1.2 = st.2)
    (h1 : ∀ m, m ≠ mp → (m ∈ st1.1 ↔ m ∈ st.1)) :
    (diskStep E s st1 r).2 = (diskStep E s st r).2 ∧
      ∀ m, m ≠ mp → (m ∈ (diskStep E s st1 r).1 ↔ m ∈ (diskStep E s st r).1) := by
  unfold diskStep
  cases hrf : rowFields r with
  | none => exact ⟨h2, h1⟩
  | some p =>
    obtain ⟨m0, fs⟩ := p
    have hne : m0 ≠ mp := by
      intro hc
      apply hr
      rw [hrf, hc]
      rfl
    simp only []
    by_cases hE : fs ∈ E
    · rw [if_pos hE, if_pos hE]
      exact ⟨h2, h1⟩
    · rw [if_neg hE, if_neg hE]
      by_cases hS : m0 ∈ st.1
      · rw [if_pos hS, if_pos ((h1 m0 hne).mpr hS)]
        exact ⟨h2, h1⟩
      · rw [if_neg hS, if_neg (fun hc => hS ((h1 m0 hne).mp hc))]
        have hseen : ∀ m, m ≠ mp → (m ∈ m0 :: st1.1 ↔ m ∈ m0 :: st.1) := by
          intro m hm
          rw [List.mem_cons, List.mem_cons, h1 m hm]
        cases hst : s m0 with
        | none => exact ⟨h2, hseen⟩
        | some stat =>
          simp only []
          by_cases hB : stat.Blocks = 0
          · rw [if_pos hB, if_pos hB]
            exact ⟨h2, hseen⟩
          · rw [if_neg hB, if_neg hB]
            refine ⟨?_, hseen⟩
            show st1.2 ++ _ = st.2 ++ _
            rw [h2]

theorem foldl_diskStep_sim (E : List String) (s : String → Option Statfs_t) (mp : String)
    (hdead : s mp = none ∨ ∃ stat, s mp = some stat ∧ stat.Blocks = 0)
    (rows : List String) (st st1 : List String × List DiskUsage) (h2 : st1.2 = st.2)
    (h1 : ∀ m, m ≠ mp → (m ∈ st1.1 ↔ m ∈ st.1)) :
    ((rows.filter (fun r => decide ((rowFields r).map Prod.fst ≠ some mp))).foldl
        (diskStep E s) st1).2 = (rows.foldl (diskStep E s) st).2 := by
  induction rows generalizing st st1 with
  | nil => exact h2
  | cons r rest ih =>
    by_cases hk : (rowFields r).map Prod.fst ≠ some mp
    · rw [List.filter_cons_of_pos (by simpa using hk), List.foldl_cons, List.foldl_cons]
      obtain ⟨a, b⟩ := diskStep_sim E s st st1 r mp hk h2 h1
      exact ih _ _ a b
    · rw [List.filter_cons_of_neg (by simpa using hk), List.foldl_cons]
      rw [not_not] at hk
      cases hrf : rowFields r with
      | none =>
        rw [hrf] at hk
        exact absurd hk (by simp)
      | some p =>
        obtain ⟨m0, fs⟩ := p
        rw [hrf] at hk
        have hm0 : m0 = mp := by
          have := Option.some.inj hk
          exact this
        subst hm0
        obtain ⟨a, b⟩ := diskStep_dead E s st r m0 fs hrf hdead
        apply ih
        · rw [a]
          exact h2
        · intro m hm
          rw [b m hm]
          exact h1 m hm

/-- The mount points of the entries follow the order of the rows. -/
theorem scanMounts_sublist (E : List String) (s : String → Option Statfs_t)
    (rows : List String) :
    List.Sublist ((scanMounts E s rows).2.map DiskUsage.MountPoint)
      (rows.filterMap (fun r => (rowFields r).map Prod.fst)) := by
  induction rows using List.reverseRecOn with
  | nil =>
    unfold scanMounts
    simp
  | append_singleton init r ih =>
    rw [scanMounts_append_singleton, List.filterMap_append]
    rcases diskStep_cases E s (scanMounts E s init) r with hsame | ⟨mp, fs, hr, _, _, _, h2⟩
    · rw [hsame]
      exact List.Sublist.trans ih (List.sublist_append_left _ _)
    · rcases h2 with hu | ⟨stat, _, _, hu⟩
      · rw [hu]
        exact List.Sublist.trans ih (List.sublist_append_left _ _)
      · rw [hu, List.map_append]
        apply List.Sublist.append ih
        simp [hr, diskUsageOf_mountPoint]

/-- C18: a mount point that cannot be statted, or reports zero total blocks, has no
entry and raises no error, and deleting every row of it from the table leaves the
result unchanged; the result is returned without an error and its mount points follow
the order of the mount table. -/
theorem readDiskUsages_skip_dead (E : List String) (s : String → Option Statfs_t)
    (rows : List String) (mp : String)
    (hdead : s mp = none ∨ ∃ stat, s mp = some stat ∧ stat.Blocks = 0) :
    (∀ e ∈ readDiskUsages E s rows, e.MountPoint ≠ mp) ∧
    readDiskUsages E s
        (rows.filter (fun r => decide ((rowFields r).map Prod.fst ≠ some mp)))
      = readDiskUsages E s rows ∧
    readDiskUsagesFile E s ⟨none, rows, none⟩ = .ok (readDiskUsages E s rows) ∧
    readDiskUsagesFile E s
        ⟨none, rows.filter (fun r => decide ((rowFields r).map Prod.fst ≠ some mp)), none⟩
      = .ok (readDiskUsages E s rows) ∧
    List.Sublist ((readDiskUsages E s rows).map DiskUsage.MountPoint)
      (rows.filterMap (fun r => (rowFields r).map Prod.fst)) := by
  have hsim : readDiskUsages E s
      (rows.filter (fun r => decide ((rowFields r).map Prod.fst ≠ some mp)))
        = readDiskUsages E s rows :=
    foldl_diskStep_sim E s mp hdead rows ([], []) ([], []) rfl (fun _ _ => Iff.rfl)
  refine ⟨?_, hsim, rfl, ?_, scanMounts_sublist E s rows⟩
  · intro e he hmp
    obtain ⟨stat, hst, hB, _⟩ := (scanMounts_inv E s rows).2.2.1 e he
    rw [hmp] at hst
    rcases hdead with hn | ⟨stat1, hst1, hB1⟩
    · rw [hn] at hst
      exact absurd hst (by simp)
    · rw [hst1] at hst
      have := Option.some.inj hst
      rw [this] at hB1
      exact hB hB1
  · show Result.ok (readDiskUsages E s _) = _
    rw [hsim]

theorem readDiskUsages_skip_dead_witness :
    (sampleStatfsGone "/mnt/gone" = none ∨
        ∃ stat, sampleStatfsGone "/mnt/gone" = some stat ∧ stat.Blocks = 0) ∧
      readDiskUsages defaultDiskFSTypeExclude sampleStatfsGone
          (sampleMountsGone.filter
            (fun r => decide ((rowFields r).map Prod.fst ≠ some "/mnt/gone")))
        = readDiskUsages defaultDiskFSTypeExclude sampleStatfsGone sampleMountsGone :=
  ⟨Or.inl (by simp [sampleStatfsGone]),
    (readDiskUsages_skip_dead defaultDiskFSTypeExclude sampleStatfsGone sampleMountsGone
      "/mnt/gone" (Or.inl (by simp [sampleStatfsGone]))).2.1⟩

/-! ## CPU snapshot -/

theorem parseCounters_ok (fs : List String) (cs : List Nat)
    (h : fs.map ParseUint = cs.map some) : parseCounters fs = .ok cs := by
  induction fs generalizing cs with
  | nil =>
    cases cs with
    | nil => rfl
    | cons c cs => simp at h
  | cons f fs ih =>
    cases cs with
    | nil => simp at h
    | cons c cs =>
      simp only [List.map_cons, List.cons.injEq] at h
      unfold parseCounters
      rw [h.1]
      simp only []
      rw [ih cs h.2]

theorem parseCounters_length (fs : List String) (vs : List Nat)
    (h : parseCounters fs = .ok vs) : vs.length = fs.length := by
  induction fs generalizing vs with
  | nil =>
    unfold parseCounters at h
    injection h with h
    subst h
    rfl
  | cons f fs ih =>
    unfold parseCounters at h
    cases hp : ParseUint f with
    | none =>
      rw [hp] at h
      simp at h
    | some v =>
      rw [hp] at h
      simp only [] at h
      cases hr : parseCounters fs with
      | error g =>
        rw [hr] at h
        simp at h
      | ok ws =>
        rw [hr] at h
        simp only [] at h
        injection h with h
        rw [← h, List.length_cons, ih ws hr, List.length_cons]

theorem parseCounters_error (fs : List String) (h : ∃ f ∈ fs, ParseUint f = none) :
    ∃ f ∈ fs, ParseUint f = none ∧ parseCounters fs = .error f := by
  induction fs with
  | nil =>
    obtain ⟨f, hf, _⟩ := h
    simp at hf
  | cons f fs ih =>
    cases hp : ParseUint f with
    | none =>
      refine ⟨f, List.mem_cons_self _ _, hp, ?_⟩
      unfold parseCounters
      rw [hp]
    | some v =>
      have hrest : ∃ g ∈ fs, ParseUint g = none := by
        obtain ⟨g, hg, hgn⟩ := h
        rcases List.mem_cons.mp hg with rfl | hin
        · rw [hp] at hgn
          exact absurd hgn (by simp)
        · exact ⟨g, hin, hgn⟩
      obtain ⟨g, hg, hgn, hpe⟩ := ih hrest
      refine ⟨g, List.mem_cons_of_mem _ hg, hgn, ?_⟩
      unfold parseCounters
      rw [hp]
      simp only []
      rw [hpe]

theorem foldl_addU64_mod (vs : List Nat) (a : Nat) :
    (vs.foldl (fun total v => (total + v) % 2 ^ 64) a) % 2 ^ 64 = (a + vs.sum) % 2 ^ 64 := by
  induction vs generalizing a with
  | nil => simp
  | cons v vs ih =>
    rw [List.foldl_cons, ih, List.sum_cons]
    omega

theorem foldl_addU64_lt (vs : List Nat) (a : Nat) (ha : a < 2 ^ 64) :
    vs.foldl (fun total v => (total + v) % 2 ^ 64) a < 2 ^ 64 := by
  induction vs generalizing a with
  | nil => exact ha
  | cons v vs ih =>
    rw [List.foldl_cons]
    exact ih _ (Nat.mod_lt _ (by norm_num))

theorem sumU64_eq (vs : List Nat) : sumU64 vs = vs.sum % 2 ^ 64 := by
  have h1 := foldl_addU64_mod vs 0
  have h2 := foldl_addU64_lt vs 0 (by norm_num)
  unfold sumU64
  rw [Nat.mod_eq_of_lt h2] at h1
  rw [h1, Nat.zero_add]

/-- The value `readCPUSnapshot` returns once the counters are parsed: the idle field is
the fourth counter, plus the fifth if there is one. -/
theorem readCPUSnapshot_of_counters (numError : String → String) (line : String)
    (c1 c2 c3 c4 : Nat) (rest : List Nat) (hp : HasPrefix line "cpu " = true)
    (hpc : parseCounters (Fields line).tail = .ok (c1 :: c2 :: c3 :: c4 :: rest)) :
    readCPUSnapshot numError line = some (.ok
      { idle := if rest.length = 0 then c4 else (c4 + rest.headD 0) % 2 ^ 64,
        total := (c1 :: c2 :: c3 :: c4 :: rest).sum % 2 ^ 64 }) := by
  have hlen := parseCounters_length _ _ hpc
  have hfl : ¬ (Fields line).length < 5 := by
    have : (Fields line).tail.length = (Fields line).length - 1 := List.length_tail _
    simp only [List.length_cons] at hlen
    omega
  unfold readCPUSnapshot
  rw [hp]
  simp only [Bool.not_true, Bool.false_eq_true, if_false]
  rw [if_neg hfl, hpc]
  simp only []
  rw [sumU64_eq]
  cases rest with
  | nil => simp
  | cons c5 rest => simp

theorem readCPUSnapshot_total (numError : String → String) (line : String) :
    ∃ r, readCPUSnapshot numError line = some r := by
  by_cases hp : HasPrefix line "cpu " = true
  · by_cases hfl : (Fields line).length < 5
    · refine ⟨.error "invalid cpu fields", ?_⟩
      unfold readCPUSnapshot
      rw [hp]
      simp only [Bool.not_true, Bool.false_eq_true, if_false]
      rw [if_pos hfl]
    · cases hpc : parseCounters (Fields line).tail with
      | error f =>
        refine ⟨.error (numError f), ?_⟩
        unfold readCPUSnapshot
        rw [hp]
        simp only [Bool.not_true, Bool.false_eq_true, if_false]
        rw [if_neg hfl, hpc]
      | ok values =>
        have hlen := parseCounters_length _ _ hpc
        have ht : (Fields line).tail.length = (Fields line).length - 1 := List.length_tail _
        match values, hpc, hlen with
        | c1 :: c2 :: c3 :: c4 :: rest, hpc, _ =>
          exact ⟨_, readCPUSnapshot_of_counters numError line c1 c2 c3 c4 rest hp hpc⟩
        | [], _, hlen => simp only [List.length_nil] at hlen; omega
        | [_], _, hlen => simp only [List.length_cons, List.length_nil] at hlen; omega
        | [_, _], _, hlen => simp only [List.length_cons, List.length_nil] at hlen; omega
        | [_, _, _], _, hlen => simp only [List.length_cons, List.length_nil] at hlen; omega
  · refine ⟨.error "cpu line not found", ?_⟩
    unfold readCPUSnapshot
    rw [Bool.not_eq_true] at hp
    rw [hp]
    simp

/-- C19: on a first line that starts with `cpu ` and whose fields after the first are
`n ≥ 4` decimal counters `c1 .. cn`, `readCPUSnapshot` succeeds with `idle = c4 + c5`
(`c4` alone when `n = 4`) and `total = c1 + ... + cn`, both in `uint64` arithmetic
(modulo `2 ^ 64`); a line without the prefix, with fewer than four counters or with a
counter that `ParseUint` rejects gives an error; and no line makes an index run out of
range. -/
theorem readCPUSnapshot_spec (numError : String → String) (line : String) :
    (∀ (c1 c2 c3 c4 : Nat) (rest : List Nat), HasPrefix line "cpu " = true →
      (Fields line).tail.map ParseUint = (c1 :: c2 :: c3 :: c4 :: rest).map some →
      readCPUSnapshot numError line = some (.ok
        { idle := if rest.length = 0 then c4 else (c4 + rest.headD 0) % 2 ^ 64,
          total := (c1 + (c2 + (c3 + (c4 + rest.sum)))) % 2 ^ 64 })) ∧
    (HasPrefix line "cpu " = false →
      readCPUSnapshot numError line = some (.error "cpu line not found")) ∧
    (HasPrefix line "cpu " = true → (Fields line).length < 5 →
      readCPUSnapshot numError line = some (.error "invalid cpu fields")) ∧
    (HasPrefix line "cpu " = true → 5 ≤ (Fields line).length →
      (∃ f ∈ (Fields line).tail, ParseUint f = none) →
      ∃ f ∈ (Fields line).tail, ParseUint f = none ∧
        readCPUSnapshot numError line = some (.error (numError f))) ∧
    (∃ r, readCPUSnapshot numError line = some r) ∧
    readCPUSnapshot numError "cpu  4705 356 584 3699 23 23 0 0 0 0\n"
      = some (.ok { idle := 3722, total := 9390 }) ∧
    readCPUSnapshot numError "cpu  4705 356 584 3699\n"
      = some (.ok { idle := 3699, total := 9344 }) := by
  refine ⟨?_, ?_, ?_, ?_, readCPUSnapshot_total numError line, ?_, ?_⟩
  · intro c1 c2 c3 c4 rest hp hcs
    have := readCPUSnapshot_of_counters numError line c1 c2 c3 c4 rest hp
      (parseCounters_ok _ _ hcs)
    simpa only [List.sum_cons] using this
  · intro hp
    unfold readCPUSnapshot
    rw [hp]
    simp
  · intro hp hfl
    unfold readCPUSnapshot
    rw [hp]
    simp only [Bool.not_true, Bool.false_eq_true, if_false]
    rw [if_pos hfl]
  · intro hp hfl hbad
    obtain ⟨f, hf, hfn, hpe⟩ := parseCounters_error _ hbad
    refine ⟨f, hf, hfn, ?_⟩
    unfold readCPUSnapshot
    rw [hp]
    simp only [Bool.not_true, Bool.false_eq_true, if_false]
    rw [if_neg (by omega), hpe]
  · have h := readCPUSnapshot_of_counters numError "cpu  4705 356 584 3699 23 23 0 0 0 0\n"
      4705 356 584 3699 [23, 23, 0, 0, 0, 0] (by decide) (parseCounters_ok _ _ (by decide))
    rw [h]
    decide
  · have h := readCPUSnapshot_of_counters numError "cpu  4705 356 584 3699\n"
      4705 356 584 3699 [] (by decide) (parseCounters_ok _ _ (by decide))
    rw [h]
    decide

/-! ## formatBytes -/

/-- The loop of `formatBytes` multiplies `div` by 1024 and counts once for every factor
1024 that fits `n`. -/
theorem formatBytesLoop_eq (fuel n div exp : Nat) (hn : n ≤ fuel) (hd : div < 2 ^ 64) :
    formatBytesLoop fuel n div exp
      = ((div * 1024 ^ Nat.log 1024 n) % 2 ^ 64, exp + Nat.log 1024 n) := by
  induction fuel generalizing n div exp with
  | zero =>
    have h0 : n = 0 := by omega
    subst h0
    unfold formatBytesLoop
    simp only [Nat.log_zero_right, pow_zero, Nat.mul_one, Nat.add_zero]
    rw [Nat.mod_eq_of_lt hd]
  | succ fuel ih =>
    unfold formatBytesLoop
    by_cases hc : 1024 ≤ n
    · rw [if_pos hc, ih (n / 1024) (mulU64 div 1024) (exp + 1) (by omega) (mulU64_lt _ _),
        Nat.log_of_one_lt_of_le (by norm_num) hc]
      unfold mulU64
      congr 1
      · rw [pow_succ, Nat.mod_mul_mod]
        congr 1
        ring
      · ring
    · rw [if_neg hc, Nat.log_of_lt (by omega)]
      simp only [pow_zero, Nat.mul_one, Nat.add_zero]
      rw [Nat.mod_eq_of_lt hd]

/-- The text `formatBytes` renders for `1024 ^ k ≤ v < 1024 ^ (k + 1)`, `1 ≤ k ≤ 6`: the
divisor is `1024 ^ k`, and the suffix is the `k`-th one, or the last one for `k = 6`. -/
theorem formatBytes_of_range (v k : Nat) (hk1 : 1 ≤ k) (hk6 : k ≤ 6) (h1 : 1024 ^ k ≤ v)
    (h2 : v < 1024 ^ (k + 1)) :
    formatBytes v = formatFloat 1 (F64.div (F64.ofUInt64 v) (F64.ofUInt64 (1024 ^ k)))
      ++ " " ++ byteSuffixes.getD (min (k - 1) 4) "" := by
  have hv : ¬ v < 1024 := by
    have : 1024 ^ 1 ≤ 1024 ^ k := Nat.pow_le_pow_right (by norm_num) hk1
    omega
  have hlog : Nat.log 1024 (v / 1024) = k - 1 := by
    apply Nat.log_eq_of_pow_le_of_lt_pow
    · rw [Nat.le_div_iff_mul_le (by norm_num), ← pow_succ]
      have : k - 1 + 1 = k := by omega
      rw [this]
      exact h1
    · rw [Nat.div_lt_iff_lt_mul (by norm_num), ← pow_succ]
      have : k - 1 + 1 + 1 = k + 1 := by omega
      rw [this]
      exact h2
  have hloop := formatBytesLoop_eq v (v / 1024) 1024 0 (Nat.div_le_self _ _) (by norm_num)
  rw [hlog] at hloop
  have hdiv : (1024 * 1024 ^ (k - 1)) % 2 ^ 64 = 1024 ^ k := by
    have e : 1024 * 1024 ^ (k - 1) = 1024 ^ k := by
      rw [← pow_succ']
      congr 1
      omega
    rw [e]
    apply Nat.mod_eq_of_lt
    calc 1024 ^ k ≤ 1024 ^ 6 := Nat.pow_le_pow_right (by norm_num) hk6
      _ < 2 ^ 64 := by norm_num
  rw [hdiv, Nat.zero_add] at hloop
  unfold formatBytes
  rw [if_neg hv]
  simp only []
  rw [hloop]
  simp only []
  congr 2
  have hlen : byteSuffixes.length = 5 := rfl
  rw [hlen]
  by_cases hc : 5 ≤ k - 1
  · rw [if_pos hc]
    omega
  · rw [if_neg hc]
    omega

theorem quotient_eq (x d : Nat) (hx : x < 2 ^ 64) (hd0 : 0 < d) (hd : d < 2 ^ 64) :
    F64.div (F64.ofUInt64 x) (F64.ofUInt64 d)
      = F64.finite (roundToF64 (roundToF64 (x : ℚ) / roundToF64 (d : ℚ))) := by
  have hX0 := roundToF64_nonneg (x : ℚ) (Nat.cast_nonneg x)
  have hX1 := roundToF64_natCast_le x hx
  have hD1 := one_le_roundToF64_natCast d hd0
  have hDpos : (0 : ℚ) < roundToF64 (d : ℚ) := by linarith
  have hq0 : 0 ≤ roundToF64 (x : ℚ) / roundToF64 (d : ℚ) := div_nonneg hX0 hDpos.le
  have hq1 : roundToF64 (x : ℚ) / roundToF64 (d : ℚ) ≤ (2 : ℚ) ^ 64 := by
    rw [div_le_iff₀ hDpos]
    nlinarith
  rw [F64.ofUInt64_eq x hx, F64.ofUInt64_eq d hd]
  unfold F64.div
  simp only []
  rw [if_neg (ne_of_gt hDpos), F64.round_of_le _ hq0 (by linarith)]

/-- The `float64` quotient of two positive `uint64` values is within the relative error
`2 ^ (-51)` of the exact quotient. -/
theorem quotient_rel_err (x d : Nat) (hx0 : 0 < x) (hd0 : 0 < d) (hd : d < 2 ^ 64) :
    (x : ℚ) / d * (1 - (2 : ℚ) ^ (-51 : ℤ))
        ≤ roundToF64 (roundToF64 (x : ℚ) / roundToF64 (d : ℚ)) ∧
      roundToF64 (roundToF64 (x : ℚ) / roundToF64 (d : ℚ))
        ≤ (x : ℚ) / d * (1 + (2 : ℚ) ^ (-51 : ℤ)) := by
  have hxq : (1 : ℚ) ≤ (x : ℚ) := by exact_mod_cast hx0
  have hdq : (1 : ℚ) ≤ (d : ℚ) := by exact_mod_cast hd0
  have hsmall : (2 : ℚ) ^ (-1022 : ℤ) ≤ (2 : ℚ) ^ (-64 : ℤ) :=
    zpow_le_zpow_right₀ (by norm_num) (by norm_num)
  have hsmall1 : (2 : ℚ) ^ (-64 : ℤ) ≤ 1 := by norm_num
  obtain ⟨x1, x2⟩ := roundToF64_rel_err (x : ℚ) (by linarith)
  obtain ⟨d1, d2⟩ := roundToF64_rel_err (d : ℚ) (by linarith)
  have hX1 := one_le_roundToF64_natCast x hx0
  have hD1 := one_le_roundToF64_natCast d hd0
  have hDle := roundToF64_natCast_le d hd
  generalize roundToF64 (x : ℚ) = X at *
  generalize roundToF64 (d : ℚ) = D at *
  have hDpos : (0 : ℚ) < D := by linarith
  have hq64 : (2 : ℚ) ^ (-64 : ℤ) ≤ X / D := by
    rw [le_div_iff₀ hDpos]
    have e : (2 : ℚ) ^ (-64 : ℤ) * (2 : ℚ) ^ 64 = 1 := by norm_num
    nlinarith [zpow_pos (by norm_num : (0 : ℚ) < 2) (-64)]
  obtain ⟨q1, q2⟩ := roundToF64_rel_err (X / D) (by linarith)
  generalize roundToF64 (X / D) = Q at *
  have hε : (2 : ℚ) ^ (-53 : ℤ) = 1 / 9007199254740992 := by norm_num
  have hε51 : (2 : ℚ) ^ (-51 : ℤ) = 1 / 2251799813685248 := by norm_num
  rw [hε] at x1 x2 d1 d2 q1 q2
  rw [hε51]
  have hdpos : (0 : ℚ) < d := by linarith
  have hxpos : (0 : ℚ) < x := by linarith
  have hXD1 : (x : ℚ) / d * ((1 - 1 / 9007199254740992) / (1 + 1 / 9007199254740992)) ≤ X / D := by
    rw [le_div_iff₀ hDpos]
    have h1 : (x : ℚ) / d * ((1 - 1 / 9007199254740992) / (1 + 1 / 9007199254740992)) * D
        ≤ (x : ℚ) / d * ((1 - 1 / 9007199254740992) / (1 + 1 / 9007199254740992))
          * (d * (1 + 1 / 9007199254740992)) :=
      mul_le_mul_of_nonneg_left d2 (by positivity)
    have e : (x : ℚ) / d * ((1 - 1 / 9007199254740992) / (1 + 1 / 9007199254740992))
          * (d * (1 + 1 / 9007199254740992)) = x * (1 - 1 / 9007199254740992) := by
      field_simp
    linarith
  have hXD2 : X / D ≤ (x : ℚ) / d * ((1 + 1 / 9007199254740992) / (1 - 1 / 9007199254740992)) := by
    rw [div_le_iff₀ hDpos]
    have h1 : (x : ℚ) / d * ((1 + 1 / 9007199254740992) / (1 - 1 / 9007199254740992))
          * (d * (1 - 1 / 9007199254740992))
        ≤ (x : ℚ) / d * ((1 + 1 / 9007199254740992) / (1 - 1 / 9007199254740992)) * D :=
      mul_le_mul_of_nonneg_left d1 (by positivity)
    have e : (x : ℚ) / d * ((1 + 1 / 9007199254740992) / (1 - 1 / 9007199254740992))
          * (d * (1 - 1 / 9007199254740992)) = x * (1 + 1 / 9007199254740992) := by
      field_simp
    linarith
  have hr : (0 : ℚ) ≤ (x : ℚ) / d := by positivity
  have hy0 : (0 : ℚ) ≤ X / D := by positivity
  generalize (x : ℚ) / d = r at *
  generalize X / D = y at *
  constructor
  · calc r * (1 - 1 / 2251799813685248)
        ≤ r * ((1 - 1 / 9007199254740992) / (1 + 1 / 9007199254740992))
            * (1 - 1 / 9007199254740992) := by
          have hc : (1 : ℚ) - 1 / 2251799813685248
              ≤ ((1 - 1 / 9007199254740992) / (1 + 1 / 9007199254740992))
                * (1 - 1 / 9007199254740992) := by
            norm_num
          nlinarith [mul_le_mul_of_nonneg_left hc hr]
      _ ≤ y * (1 - 1 / 9007199254740992) := by
          gcongr
      _ ≤ Q := q1
  · calc Q ≤ y * (1 + 1 / 9007199254740992) := q2
      _ ≤ r * ((1 + 1 / 9007199254740992) / (1 - 1 / 9007199254740992))
            * (1 + 1 / 9007199254740992) := by
          gcongr
      _ ≤ r * (1 + 1 / 2251799813685248) := by
          have hc : ((1 + 1 / 9007199254740992) / (1 - 1 / 9007199254740992))
                * (1 + 1 / 9007199254740992)
              ≤ (1 : ℚ) + 1 / 2251799813685248 := by
            norm_num
          nlinarith [mul_le_mul_of_nonneg_left hc hr]

/-- C15: `formatBytes` renders `v < 1024` as its decimal digits and ` B`, and
`1024 ^ k ≤ v < 1024 ^ (k + 1)`, `k = 1 .. 5`, as `float64(v) / float64(1024 ^ k)`
printed with one decimal (a finite value within the relative error `2 ^ (-51)` of
`v / 1024 ^ k`) followed by the `k`-th of the suffixes KiB, MiB, GiB, TiB, PiB; 1023,
1536 and 1073741824 bytes give `1023 B`, `1.5 KiB` and `1.0 GiB`. -/
theorem formatBytes_units (v : Nat) :
    (v < 1024 → formatBytes v = Nat.repr v ++ " B") ∧
    (∀ k, 1 ≤ k → k ≤ 5 → 1024 ^ k ≤ v → v < 1024 ^ (k + 1) →
      formatBytes v = formatFloat 1 (F64.div (F64.ofUInt64 v) (F64.ofUInt64 (1024 ^ k)))
          ++ " " ++ byteSuffixes.getD (k - 1) "" ∧
      ∃ p : ℚ, F64.div (F64.ofUInt64 v) (F64.ofUInt64 (1024 ^ k)) = F64.finite p ∧
        (v : ℚ) / ((1024 ^ k : ℕ) : ℚ) * (1 - (2 : ℚ) ^ (-51 : ℤ)) ≤ p ∧
        p ≤ (v : ℚ) / ((1024 ^ k : ℕ) : ℚ) * (1 + (2 : ℚ) ^ (-51 : ℤ))) ∧
    byteSuffixes = ["KiB", "MiB", "GiB", "TiB", "PiB"] ∧
    formatBytes 1023 = "1023 B" ∧ formatBytes 1536 = "1.5 KiB" ∧
    formatBytes 1073741824 = "1.0 GiB" := by
  refine ⟨?_, ?_, rfl, by decide!, by decide!, by decide!⟩
  · intro hv
    unfold formatBytes
    rw [if_pos hv]
  · intro k hk1 hk5 h1 h2
    have hpow : 1024 ^ k < 2 ^ 64 :=
      calc 1024 ^ k ≤ 1024 ^ 5 := Nat.pow_le_pow_right (by norm_num) hk5
        _ < 2 ^ 64 := by norm_num
    have hv64 : v < 2 ^ 64 :=
      calc v < 1024 ^ (k + 1) := h2
        _ ≤ 1024 ^ 6 := Nat.pow_le_pow_right (by norm_num) (by omega)
        _ < 2 ^ 64 := by norm_num
    have hpos : 0 < 1024 ^ k := Nat.pow_pos (by norm_num)
    constructor
    · rw [formatBytes_of_range v k hk1 (by omega) h1 h2]
      congr 2
      omega
    · exact ⟨_, quotient_eq v (1024 ^ k) hv64 hpos hpow,
        quotient_rel_err v (1024 ^ k) (by omega) hpos hpow⟩

/-- From `2 ^ 60` on, the number printed is `v / 1024 ^ 6` while the suffix stays
`PiB`. -/
theorem formatBytes_above_pebi (v : Nat) (h1 : 2 ^ 60 ≤ v) (h2 : v < 2 ^ 64) :
    formatBytes v = formatFloat 1 (F64.div (F64.ofUInt64 v) (F64.ofUInt64 (1024 ^ 6)))
      ++ " " ++ "PiB" := by
  have e60 : (1024 : ℕ) ^ 6 = 2 ^ 60 := by norm_num
  have e70 : (2 : ℕ) ^ 64 < 1024 ^ (6 + 1) := by norm_num
  rw [formatBytes_of_range v 6 (by norm_num) le_rfl (by omega) (by omega)]
  rfl

/-- C20, at the failing input: for `v = 2 ^ 60` (one exbibyte, 1024 PiB) the loop leaves
`div = 1024 ^ 6` while the suffix index is cut back to `PiB`, and `formatBytes` prints
`1.0 PiB`. -/
theorem formatBytes_exbibyte : formatBytes (2 ^ 60) = "1.0 PiB" := by
  decide!

/-! ## Threshold evaluation -/

theorem evalCPU_append (t : F64) (cpu : Result F64) (alerts : List String) :
    evalCPU t cpu alerts = alerts ++ evalCPU t cpu [] := by
  unfold evalCPU
  cases cpu with
  | error err => simp
  | ok x =>
    simp only []
    split_ifs <;> simp

theorem evalMem_append (t : F64) (mem : Result F64) (alerts : List String) :
    evalMem t mem alerts = alerts ++ evalMem t mem [] := by
  unfold evalMem
  cases mem with
  | error err => simp
  | ok x =>
    simp only []
    split_ifs <;> simp

theorem foldl_diskLine (t : F64) (usages : List DiskUsage) (alerts : List String) :
    usages.foldl
        (fun alerts du =>
          if F64.ge du.UsedPercent t then alerts ++ [diskLine t du] else alerts) alerts
      = alerts ++ (usages.filter (fun du => F64.ge du.UsedPercent t)).map (diskLine t) := by
  induction usages generalizing alerts with
  | nil => simp
  | cons du rest ih =>
    rw [List.foldl_cons, ih]
    by_cases hc : F64.ge du.UsedPercent t = true
    · rw [if_pos hc]
      simp [List.filter_cons, hc]
    · rw [if_neg hc]
      simp [List.filter_cons, hc]

theorem evalDisk_ok (t : F64) (usages : List DiskUsage) (alerts : List String) :
    evalDisk t (.ok usages) alerts
      = alerts ++ (usages.filter (fun du => F64.ge du.UsedPercent t)).map (diskLine t) :=
  foldl_diskLine t usages alerts

theorem evalDisk_append (t : F64) (disk : Result (List DiskUsage)) (alerts : List String) :
    evalDisk t disk alerts = alerts ++ evalDisk t disk [] := by
  cases disk with
  | error err =>
    unfold evalDisk
    simp
  | ok usages =>
    rw [evalDisk_ok, evalDisk_ok, List.nil_append]

theorem collectAlerts_append (cfg : Config) (cpu mem : Result F64)
    (disk : Result (List DiskUsage)) :
    collectAlerts cfg cpu mem disk
      = evalCPU cfg.CPUThreshold cpu [] ++ evalMem cfg.MemThreshold mem []
        ++ evalDisk cfg.DiskThreshold disk [] := by
  unfold collectAlerts
  rw [evalDisk_append, evalMem_append]

theorem evalCPU_eq_nil (t : F64) (cpu : Result F64) :
    evalCPU t cpu [] = [] ↔ ∃ x, cpu = .ok x ∧ F64.ge x t = false := by
  unfold evalCPU
  cases cpu with
  | error err => simp
  | ok x =>
    simp only []
    by_cases hc : F64.ge x t = true
    · rw [if_pos hc]
      simp [hc]
    · rw [if_neg hc]
      simp only [Bool.not_eq_true] at hc
      simp [hc]

theorem evalMem_eq_nil (t : F64) (mem : Result F64) :
    evalMem t mem [] = [] ↔ ∃ x, mem = .ok x ∧ F64.ge x t = false := by
  unfold evalMem
  cases mem with
  | error err => simp
  | ok x =>
    simp only []
    by_cases hc : F64.ge x t = true
    · rw [if_pos hc]
      simp [hc]
    · rw [if_neg hc]
      simp only [Bool.not_eq_true] at hc
      simp [hc]

theorem evalDisk_eq_nil (t : F64) (disk : Result (List DiskUsage)) :
    evalDisk t disk [] = [] ↔
      ∃ usages, disk = .ok usages ∧ ∀ du ∈ usages, F64.ge du.UsedPercent t = false := by
  cases disk with
  | error err =>
    unfold evalDisk
    simp
  | ok usages =>
    rw [evalDisk_ok, List.nil_append, List.map_eq_nil_iff, List.filter_eq_nil_iff]
    constructor
    · intro h
      exact ⟨usages, rfl, fun du hdu => by simpa using h du hdu⟩
    · rintro ⟨us, hus, h⟩
      injection hus with hus
      subst hus
      intro du hdu
      simpa using h du hdu

/-- C12: each block of `main` appends the breach line of its metric exactly when the
value is at or above the threshold (`>=`, so a value equal to the threshold produces
the line and a lower one does not), for every mount of a successful disk scan
separately; when the reader failed it appends exactly one failure line naming the
metric. -/
theorem threshold_inclusive (t : F64) (alerts : List String) :
    (∀ x, evalCPU t (.ok x) alerts =
      if F64.ge x t = true then
        alerts ++ ["CPU: " ++ formatFloat 1 x ++ "% (порог " ++ formatFloat 0 t ++ "%)"]
      else alerts) ∧
    (∀ err, evalCPU t (.error err) alerts = alerts ++ ["CPU: ошибка чтения (" ++ err ++ ")"]) ∧
    (∀ x, evalMem t (.ok x) alerts =
      if F64.ge x t = true then
        alerts ++ ["RAM: " ++ formatFloat 1 x ++ "% (порог " ++ formatFloat 0 t ++ "%)"]
      else alerts) ∧
    (∀ err, evalMem t (.error err) alerts = alerts ++ ["RAM: ошибка чтения (" ++ err ++ ")"]) ∧
    (∀ usages, evalDisk t (.ok usages) alerts =
      alerts ++ (usages.filter (fun du => F64.ge du.UsedPercent t)).map (diskLine t)) ∧
    (∀ err, evalDisk t (.error err) alerts
      = alerts ++ ["Диск: ошибка чтения (" ++ err ++ ")"]) ∧
    (∀ q r : ℚ, F64.ge (F64.finite q) (F64.finite r) = true ↔ r ≤ q) ∧
    (∀ q : ℚ, F64.ge (F64.finite q) (F64.finite q) = true) ∧
    (∀ q r : ℚ, q < r → F64.ge (F64.finite q) (F64.finite r) = false) := by
  refine ⟨fun _ => rfl, fun _ => rfl, fun _ => rfl, fun _ => rfl,
    fun usages => evalDisk_ok t usages alerts, fun _ => rfl, ?_, ?_, ?_⟩
  · intro q r
    unfold F64.ge
    simp
  · intro q
    unfold F64.ge
    simp
  · intro q r h
    unfold F64.ge
    simpa using h

/-- C13: the alerts of a run are the CPU part (at most one line), then the memory part
(at most one line), then the disk part (one line when the scan failed, otherwise one
line for each mount at or above the threshold, in scan order); each part is a function
of its own reader result and threshold only. With CPU 85 and memory 50 against
thresholds 80 and no mount at or above the disk threshold the alerts are the single
CPU line. -/
theorem collectAlerts_parts (cfg : Config) (cpu mem : Result F64)
    (disk : Result (List DiskUsage)) :
    collectAlerts cfg cpu mem disk
      = evalCPU cfg.CPUThreshold cpu [] ++ evalMem cfg.MemThreshold mem []
        ++ evalDisk cfg.DiskThreshold disk [] ∧
    (evalCPU cfg.CPUThreshold cpu []).length ≤ 1 ∧
    (evalMem cfg.MemThreshold mem []).length ≤ 1 ∧
    (∀ err, disk = .error err → (evalDisk cfg.DiskThreshold disk []).length = 1) ∧
    (∀ usages, disk = .ok usages → evalDisk cfg.DiskThreshold disk []
      = (usages.filter (fun du => F64.ge du.UsedPercent cfg.DiskThreshold)).map
          (diskLine cfg.DiskThreshold)) ∧
    (cfg.CPUThreshold = F64.finite 80 → cfg.MemThreshold = F64.finite 80 →
      cpu = .ok (F64.finite 85) → mem = .ok (F64.finite 50) →
      (∃ usages, disk = .ok usages ∧
        ∀ du ∈ usages, F64.ge du.UsedPercent cfg.DiskThreshold = false) →
      collectAlerts cfg cpu mem disk = ["CPU: 85.0% (порог 80%)"]) := by
  refine ⟨collectAlerts_append cfg cpu mem disk, ?_, ?_, ?_, ?_, ?_⟩
  · unfold evalCPU
    cases cpu with
    | error err => simp
    | ok x =>
      simp only []
      split_ifs <;> simp
  · unfold evalMem
    cases mem with
    | error err => simp
    | ok x =>
      simp only []
      split_ifs <;> simp
  · intro err h
    rw [h]
    unfold evalDisk
    simp
  · intro usages h
    rw [h, evalDisk_ok, List.nil_append]
  · intro hc hm hcpu hmem hdisk
    have hd := (evalDisk_eq_nil cfg.DiskThreshold disk).mpr hdisk
    rw [collectAlerts_append, hd, hc, hm, hcpu, hmem, List.append_nil]
    decide!

/-- C14 as stated fails: with the CPU threshold set to NaN (`CPU_THRESHOLD=NaN` parses)
no comparison `>=` holds, so a run without reader errors has no alert and dispatches
nothing, although the CPU usage is not strictly below its threshold. -/
theorem mainRun_nan_threshold :
    collectAlerts { sampleConfig with CPUThreshold := F64.nan } (.ok (F64.finite 50))
        (.ok (F64.finite 50)) (.ok []) = [] ∧
    mainRun (.ok { sampleConfig with CPUThreshold := F64.nan }) (.ok (F64.finite 50))
        (.ok (F64.finite 50)) (.ok []) "host" "2024-01-02 03:04:05 UTC"
        (.completed 200 []) = { dispatched := [], fatal := false } ∧
    F64.lt (F64.finite 50) F64.nan = false := by
  refine ⟨by decide, by decide, by decide⟩

/-- C14, amended: once the configuration is loaded, `main` calls `sendAlert` exactly
once, with the message built from the alerts, when the alert sequence is not empty, and
not at all when it is empty; the sequence is empty exactly when no reader failed and for
CPU, memory and every scanned mount the comparison `value >= threshold` is false, in
which case the run ends without a failure. For values and thresholds that are not NaN,
`>=` being false is the same as the value being strictly below the threshold. -/
theorem mainRun_dispatch (cfg : Config) (cpu mem : Result F64)
    (disk : Result (List DiskUsage)) (hostname stamp : String) (exchange : HTTPExchange) :
    ((mainRun (.ok cfg) cpu mem disk hostname stamp exchange).dispatched
        = [buildMessage hostname stamp (collectAlerts cfg cpu mem disk)] ↔
      collectAlerts cfg cpu mem disk ≠ []) ∧
    ((mainRun (.ok cfg) cpu mem disk hostname stamp exchange).dispatched = [] ↔
      collectAlerts cfg cpu mem disk = []) ∧
    (collectAlerts cfg cpu mem disk = [] ↔
      (∃ x, cpu = .ok x ∧ F64.ge x cfg.CPUThreshold = false) ∧
      (∃ x, mem = .ok x ∧ F64.ge x cfg.MemThreshold = false) ∧
      (∃ usages, disk = .ok usages ∧
        ∀ du ∈ usages, F64.ge du.UsedPercent cfg.DiskThreshold = false)) ∧
    (collectAlerts cfg cpu mem disk = [] →
      mainRun (.ok cfg) cpu mem disk hostname stamp exchange
        = { dispatched := [], fatal := false }) ∧
    (∀ q r : ℚ, F64.ge (F64.finite q) (F64.finite r) = false ↔
      F64.lt (F64.finite q) (F64.finite r) = true) := by
  have hrun : mainRun (.ok cfg) cpu mem disk hostname stamp exchange
      = if (collectAlerts cfg cpu mem disk).length = 0 then { dispatched := [], fatal := false }
        else
          match sendAlert exchange with
          | some _ =>
            { dispatched := [buildMessage hostname stamp (collectAlerts cfg cpu mem disk)],
              fatal := true }
          | none =>
            { dispatched := [buildMessage hostname stamp (collectAlerts cfg cpu mem disk)],
              fatal := false } := rfl
  have hdisp : (mainRun (.ok cfg) cpu mem disk hostname stamp exchange).dispatched
      = if (collectAlerts cfg cpu mem disk).length = 0 then []
        else [buildMessage hostname stamp (collectAlerts cfg cpu mem disk)] := by
    rw [hrun]
    split_ifs
    · rfl
    · cases sendAlert exchange <;> rfl
  refine ⟨?_, ?_, ?_, ?_, ?_⟩
  · rw [hdisp]
    constructor
    · intro h hnil
      rw [if_pos (by rw [hnil]; rfl)] at h
      exact absurd h (by simp)
    · intro h
      rw [if_neg (by rwa [List.length_eq_zero])]
  · rw [hdisp]
    constructor
    · intro h
      by_contra hne
      rw [if_neg (by rwa [List.length_eq_zero])] at h
      exact absurd h (by simp)
    · intro h
      rw [if_pos (by rw [h]; rfl)]
  · rw [collectAlerts_append, List.append_eq_nil, List.append_eq_nil, evalCPU_eq_nil,
      evalMem_eq_nil, evalDisk_eq_nil, and_assoc]
  · intro h
    rw [hrun, if_pos (by rw [h]; rfl)]
  · intro q r
    unfold F64.ge F64.lt
    simp

/-! ## Message and dispatch -/

theorem foldl_bullet (alerts lines : List String) :
    alerts.foldl (fun lines a => lines ++ ["- " ++ a]) lines
      = lines ++ alerts.map (fun a => "- " ++ a) := by
  induction alerts generalizing lines with
  | nil => simp
  | cons a rest ih =>
    rw [List.foldl_cons, ih]
    simp

theorem splitAtNewline_nil (cur : List Char) :
    splitAtNewline [] cur = [String.mk cur.reverse] := rfl

theorem splitAtNewline_cons_ne (c : Char) (cs cur : List Char) (h : c ≠ '\n') :
    splitAtNewline (c :: cs) cur = splitAtNewline cs (c :: cur) := by
  simp only [splitAtNewline, h, if_false]

theorem splitAtNewline_cons_nl (cs cur : List Char) :
    splitAtNewline ('\n' :: cs) cur = String.mk cur.reverse :: splitAtNewline cs [] := by
  simp only [splitAtNewline, if_true]

theorem splitAtNewline_append (a rest cur : List Char) (h : ∀ c ∈ a, c ≠ '\n') :
    splitAtNewline (a ++ rest) cur = splitAtNewline rest (a.reverse ++ cur) := by
  induction a generalizing cur with
  | nil => rfl
  | cons c cs ih =>
    have hc : c ≠ '\n' := h c (List.mem_cons_self _ _)
    rw [List.cons_append, splitAtNewline_cons_ne c _ cur hc,
      ih (c :: cur) (fun d hd => h d (List.mem_cons_of_mem _ hd))]
    simp

/-- Splitting the join of lines without line feeds gives the lines back. -/
theorem splitLines_Join (ls : List String) (hne : ls ≠ [])
    (h : ∀ l ∈ ls, ∀ c ∈ l.data, c ≠ '\n') : splitLines (Join ls "\n") = ls := by
  induction ls with
  | nil => exact absurd rfl hne
  | cons a rest ih =>
    cases rest with
    | nil =>
      have h1 : Join [a] "\n" = a := rfl
      have := splitAtNewline_append a.data [] [] (h a (List.mem_cons_self _ _))
      rw [List.append_nil] at this
      unfold splitLines
      rw [h1, this, splitAtNewline_nil]
      simp
    | cons b rest =>
      have hrest := ih (by simp) (fun l hl => h l (List.mem_cons_of_mem _ hl))
      have h1 : Join (a :: b :: rest) "\n" = a ++ "\n" ++ Join (b :: rest) "\n" := rfl
      unfold splitLines at hrest ⊢
      have hdata : (a ++ "\n" ++ Join (b :: rest) "\n").data
          = a.data ++ ('\n' :: (Join (b :: rest) "\n").data) := by
        simp [String.data_append]
      rw [h1, hdata, splitAtNewline_append a.data _ [] (h a (List.mem_cons_self _ _)),
        splitAtNewline_cons_nl, hrest]
      simp

/-- C16: with the host name and the formatted time as inputs, `buildMessage` is the
join, with a line feed between them, of `n + 3` lines: the host header (`unknown` for an
empty host name), the time line, the line `Проблемы:` and, for each alert in order,
`- ` followed by the alert; when the host name, the time text and the alerts hold no
line feed, these are exactly the lines of the message. -/
theorem buildMessage_lines (hostname stamp : String) (alerts : List String) :
    buildMessage hostname stamp alerts
      = Join (("Мониторинг сервера: " ++ (if hostname = "" then "unknown" else hostname))
          :: ("Время: " ++ stamp) :: "Проблемы:" :: alerts.map (fun a => "- " ++ a)) "\n" ∧
    (("Мониторинг сервера: " ++ (if hostname = "" then "unknown" else hostname))
        :: ("Время: " ++ stamp) :: "Проблемы:" :: alerts.map (fun a => "- " ++ a)).length
      = alerts.length + 3 ∧
    ((∀ c ∈ hostname.data, c ≠ '\n') → (∀ c ∈ stamp.data, c ≠ '\n') →
      (∀ a ∈ alerts, ∀ c ∈ a.data, c ≠ '\n') →
      splitLines (buildMessage hostname stamp alerts)
        = ("Мониторинг сервера: " ++ (if hostname = "" then "unknown" else hostname))
          :: ("Время: " ++ stamp) :: "Проблемы:" :: alerts.map (fun a => "- " ++ a)) := by
  have hbuild : buildMessage hostname stamp alerts
      = Join (("Мониторинг сервера: " ++ (if hostname = "" then "unknown" else hostname))
          :: ("Время: " ++ stamp) :: "Проблемы:" :: alerts.map (fun a => "- " ++ a)) "\n" := by
    unfold buildMessage
    simp only []
    rw [foldl_bullet]
    rfl
  refine ⟨hbuild, by simp, ?_⟩
  intro hh hs ha
  rw [hbuild]
  apply splitLines_Join _ (by simp)
  intro l hl c hc
  simp only [List.mem_cons, List.mem_map] at hl
  rcases hl with rfl | rfl | rfl | ⟨a, haa, rfl⟩
  · rw [String.data_append, List.mem_append] at hc
    rcases hc with hc | hc
    · intro hn
      rw [hn] at hc
      exact absurd hc (by decide)
    · by_cases he : hostname = ""
      · rw [if_pos he] at hc
        intro hn
        rw [hn] at hc
        exact absurd hc (by decide)
      · rw [if_neg he] at hc
        exact hh c hc
  · rw [String.data_append, List.mem_append] at hc
    rcases hc with hc | hc
    · intro hn
      rw [hn] at hc
      exact absurd hc (by decide)
    · exact hs c hc
  · intro hn
    rw [hn] at hc
    exact absurd hc (by decide)
  · rw [String.data_append, List.mem_append] at hc
    rcases hc with hc | hc
    · intro hn
      rw [hn] at hc
      exact absurd hc (by decide)
    · exact ha a haa c hc

/-- C17: given a completed exchange with status code `c` and body `b`, `sendAlert`
returns the nil error exactly when `200 ≤ c < 300`; otherwise its error text is
`api status `, the decimal status, `: ` and the white-space-trimmed first 1024 bytes of
the body (all of it when shorter), so that status 500 with body `server error` gives
`api status 500: server error`. -/
theorem sendAlert_status (c : Int) (b : List UInt8) :
    (sendAlert (.completed c b) = none ↔ 200 ≤ c ∧ c < 300) ∧
    (¬(200 ≤ c ∧ c < 300) →
      sendAlert (.completed c b) = some (bytesOf "api status " ++ bytesOf (formatInt c)
        ++ bytesOf ": " ++ TrimSpace (b.take 1024)) ∧
      ∃ text, sendAlert (.completed c b) = some text ∧
        bytesOf (formatInt c) <:+: text ∧ TrimSpace (b.take 1024) <:+ text) ∧
    (b.take 1024).length ≤ 1024 ∧ (b.length ≤ 1024 → b.take 1024 = b) ∧
    sendAlert (.completed 500 (bytesOf "server error"))
      = some (bytesOf "api status 500: server error") := by
  have hval : sendAlert (.completed c b)
      = if c < 200 || c ≥ 300 then
          some (bytesOf "api status " ++ bytesOf (formatInt c) ++ bytesOf ": "
            ++ TrimSpace (b.take 1024))
        else none := rfl
  refine ⟨?_, ?_, ?_, ?_, by decide⟩
  · rw [hval]
    constructor
    · intro h
      by_contra hc
      rw [if_pos (by simp only [Bool.or_eq_true, decide_eq_true_eq]; omega)] at h
      exact absurd h (by simp)
    · intro h
      rw [if_neg (by simp only [Bool.or_eq_true, decide_eq_true_eq]; omega)]
  · intro hc
    have hpos : (c < 200 || c ≥ 300) = true := by
      simp only [Bool.or_eq_true, decide_eq_true_eq]
      omega
    rw [hval, if_pos hpos]
    refine ⟨rfl, _, rfl, ?_, ?_⟩
    · exact ⟨bytesOf "api status ", bytesOf ": " ++ TrimSpace (b.take 1024), by simp⟩
    · exact ⟨bytesOf "api status " ++ bytesOf (formatInt c) ++ bytesOf ": ", rfl⟩
  · rw [List.length_take]
    exact Nat.min_le_left _ _
  · intro h
    exact List.take_of_length_le h

end ServerMonitoring
